import Mathlib

/-!
# A verification development for `std::hash_table` (src/hash_table.h)

The container is a separate-chaining hash map: a `std::vector` of buckets, each bucket a
`std::list` of `(key, value)` pairs.

Embedding conventions.

* A bucket is a `List (K × V)`, the bucket array a list of buckets.
* `size_type` values are natural numbers: a counter of live pairs cannot wrap in memory.
* The `float` load factor, the `float` division and the comparison of `rehash_needed` are read
  as exact rational arithmetic.
* An iterator is a record of positions.  `m_bucket_iterator` and `m_buckets_end` are offsets from
  `m_buckets.begin()`.  `m_pair_iterator` names a list node as `some (b, i)`: node `i` of bucket
  `b`, where `i = length of bucket b` is that bucket's own `end()`; `none` is the singular value
  of a default-constructed `std::list` iterator.
* Operations with undefined behaviour in C++ (`x % 0`, dereferencing or incrementing an iterator
  that is singular or past the end) return `none`.
-/

/-- One bucket: `std::list<value_type>`. -/
abbrev Bucket (K V : Type) := List (K × V)

/-- The bucket array: `std::vector<Bucket>`. -/
abbrev Buckets (K V : Type) := List (Bucket K V)

/-- The three fields of `iterator_helper` (lines 122-125). -/
structure iterator where
  m_bucket_iterator : Nat
  m_buckets_end : Nat
  m_pair_iterator : Option (Nat × Nat)
deriving DecidableEq

/-- The data members of `hash_table` (lines 259-264). -/
structure hash_table (K V : Type) where
  m_buckets : Buckets K V
  m_size : Nat
  m_max_load_factor : ℚ
  m_hasher : K → Nat
  m_key_equal : K → K → Bool

/-- The constant `DEFAULT_MAX_LOAD_FACTOR = 3.0` (line 34). -/
def DEFAULT_MAX_LOAD_FACTOR : ℚ := 3

/-- Bucket `b` of the array (`*(m_buckets.begin() + b)`). -/
def bucket_at {K V : Type} (bs : Buckets K V) (b : Nat) : Bucket K V := bs.getD b []

/-- The loop `while (bucket != buckets_end && bucket->empty()) ++bucket;` shared by `begin()`
(lines 392-395) and `operator++` (lines 86-88).  The first argument bounds the number of
iterations; callers pass `buckets_end - bucket`, which the loop cannot exceed. -/
def skip_empty {K V : Type} (bs : Buckets K V) (buckets_end : Nat) : Nat → Nat → Nat
  | 0, bucket => bucket
  | fuel + 1, bucket =>
    if bucket ≠ buckets_end ∧ (bucket_at bs bucket).isEmpty then
      skip_empty bs buckets_end fuel (bucket + 1)
    else bucket

namespace iterator

/-- One side of the first test of `operator==` (lines 105-108):
`m_bucket_iterator == m_buckets_end || m_pair_iterator == m_bucket_iterator->end()`. -/
def at_end {K V : Type} (bs : Buckets K V) (it : iterator) : Bool :=
  it.m_bucket_iterator == it.m_buckets_end ||
    it.m_pair_iterator == some (it.m_bucket_iterator, (bucket_at bs it.m_bucket_iterator).length)

/-- The comparison `operator==` (lines 103-115). -/
def eq {K V : Type} (bs : Buckets K V) (a that : iterator) : Bool :=
  if a.at_end bs && that.at_end bs then true
  else if a.m_pair_iterator == that.m_pair_iterator then true
  else false

/-- The comparison `operator!=` (lines 117-120). -/
def ne {K V : Type} (bs : Buckets K V) (a that : iterator) : Bool := !(a.eq bs that)

/-- Dereference `operator*` (lines 62-65): the pair stored in the node, `none` when the pair
iterator is singular or an `end()`. -/
def deref {K V : Type} (bs : Buckets K V) (it : iterator) : Option (K × V) :=
  match it.m_pair_iterator with
  | none => none
  | some (b, i) => (bucket_at bs b)[i]?

/-- Pre-increment `operator++` (lines 82-94). -/
def next {K V : Type} (bs : Buckets K V) (it : iterator) : Option iterator :=
  match it.m_pair_iterator with
  | none => none
  | some (b, i) =>
    if i < (bucket_at bs b).length ∧ it.m_bucket_iterator < bs.length then
      let pair_iterator := (b, i + 1)
      if pair_iterator =
          (it.m_bucket_iterator, (bucket_at bs it.m_bucket_iterator).length) then
        let bucket := skip_empty bs it.m_buckets_end
          (it.m_buckets_end - (it.m_bucket_iterator + 1)) (it.m_bucket_iterator + 1)
        if bucket ≠ it.m_buckets_end then
          some ⟨bucket, it.m_buckets_end, some (bucket, 0)⟩
        else
          some ⟨bucket, it.m_buckets_end, some pair_iterator⟩
      else
        some ⟨it.m_bucket_iterator, it.m_buckets_end, some pair_iterator⟩
    else none

end iterator

/-- The range-based `for (const auto& value : *this)` of `rehash` (line 438) over the iterator
protocol `begin()`, `!= end()`, `*`, `++`: the body `f` is run on each visited pair.  The first
argument bounds the number of iterations. -/
def range_for {K V β : Type} (bs : Buckets K V) (the_end : iterator)
    (f : β → K × V → Option β) : Nat → iterator → β → Option β
  | 0, it, acc => if it.ne bs the_end then none else some acc
  | fuel + 1, it, acc =>
    if it.ne bs the_end then
      match it.deref bs with
      | none => none
      | some value =>
        match f acc value with
        | none => none
        | some acc =>
          match it.next bs with
          | none => none
          | some it => range_for bs the_end f fuel it acc
    else some acc

/-- The search loop of `find` (lines 319-327) inside one bucket: the offset of the first pair
whose key matches, or the offset of the bucket's `end()`. -/
def find_pair {K V : Type} (key_equal : K → K → Bool) (key : K) : Bucket K V → Nat → Nat
  | [], i => i
  | p :: rest, i => if key_equal key p.1 then i else find_pair key_equal key rest (i + 1)

/-- The effect of `m_buckets.resize(n)` for a vector of buckets. -/
def resize {K V : Type} (bs : Buckets K V) (n : Nat) : Buckets K V :=
  bs.take n ++ List.replicate (n - bs.length) []

namespace hash_table

variable {K V : Type}

/-- The constructor `hash_table(buckets, hash, key_eq)` (lines 134-143). -/
def construct (buckets : Nat) (hash : K → Nat) (key_eq : K → K → Bool) : hash_table K V :=
  { m_buckets := List.replicate buckets []
    m_size := 0
    m_max_load_factor := DEFAULT_MAX_LOAD_FACTOR
    m_hasher := hash
    m_key_equal := key_eq }

/-- The selector `size()` (lines 368-372). -/
def size (t : hash_table K V) : Nat := t.m_size

/-- The selector `empty()` (lines 374-378). -/
def empty (t : hash_table K V) : Bool := t.m_size == 0

/-- The selector `buckets()` (lines 380-384). -/
def buckets (t : hash_table K V) : Nat := t.m_buckets.length

/-- The iterator `begin()` (lines 386-400). -/
def begin (t : hash_table K V) : iterator :=
  let bucket := skip_empty t.m_buckets t.m_buckets.length t.m_buckets.length 0
  if bucket ≠ t.m_buckets.length then
    ⟨bucket, t.m_buckets.length, some (bucket, 0)⟩
  else
    ⟨bucket, t.m_buckets.length, none⟩

/-- The iterator `end()` (lines 418-424). -/
def end_ (t : hash_table K V) : iterator :=
  ⟨t.m_buckets.length, t.m_buckets.length, none⟩

/-- The lookup `find(key)` (lines 313-329). -/
def find (t : hash_table K V) (key : K) : Option iterator :=
  if t.m_buckets.length = 0 then none
  else
    let b := t.m_hasher key % t.m_buckets.length
    some ⟨b, t.m_buckets.length,
      some (b, find_pair t.m_key_equal key (bucket_at t.m_buckets b) 0)⟩

/-- The test `rehash_needed()` (lines 469-473):
`float(m_size + 1) / float(m_buckets.size()) > m_max_load_factor`. -/
def rehash_needed (t : hash_table K V) : Bool :=
  decide (((t.m_size + 1 : Nat) : ℚ) / ((t.m_buckets.length : Nat) : ℚ) > t.m_max_load_factor)

/-- The body of the loop of `rehash` (lines 439-440): prepend `value` to its bucket of
`new_buckets`. -/
def rehash_step (hash : K → Nat) (new_buckets : Buckets K V) (value : K × V) :
    Option (Buckets K V) :=
  if new_buckets.length = 0 then none
  else some (new_buckets.modify (fun bucket => value :: bucket)
    (hash value.1 % new_buckets.length))

/-- The total number of stored pairs, the number of iterations of a full traversal. -/
def stored (bs : Buckets K V) : Nat := (bs.map List.length).sum

/-- The operation `rehash(buckets)` (lines 434-443). -/
def rehash (t : hash_table K V) (buckets : Nat) : Option (hash_table K V) :=
  match range_for t.m_buckets t.end_ (rehash_step t.m_hasher) (stored t.m_buckets) t.begin
      (List.replicate buckets []) with
  | none => none
  | some new_buckets => some { t with m_buckets := new_buckets }

/-- The mutator `insert(value)` (lines 276-293). -/
def insert (t : hash_table K V) (value : K × V) : Option (hash_table K V × iterator) :=
  match t.find value.1 with
  | none => none
  | some existing_value =>
    if existing_value.ne t.m_buckets t.end_ then
      match existing_value.m_pair_iterator with
      | none => none
      | some (b, i) =>
        some ({ t with m_buckets :=
                  t.m_buckets.modify (fun bucket => bucket.modify (fun p => (p.1, value.2)) i) b },
              existing_value)
    else
      let t1 := { t with m_size := t.m_size + 1 }
      match (if t1.rehash_needed then t1.rehash (t1.m_buckets.length + 1) else some t1) with
      | none => none
      | some t2 =>
        if t2.m_buckets.length = 0 then none
        else
          let b := t2.m_hasher value.1 % t2.m_buckets.length
          some ({ t2 with m_buckets := t2.m_buckets.modify (fun bucket => value :: bucket) b },
                ⟨b, t2.m_buckets.length, some (b, 0)⟩)

/-- The mutator `erase(position)` (lines 304-311).  The returned iterator is `tmp`; a
`std::list` iterator stays on its node when another node is erased, so a node that followed the
erased one in the same bucket is found one offset earlier afterwards.  Erasing through a bucket
that does not own the node is undefined. -/
def erase_at (t : hash_table K V) (position : iterator) : Option (hash_table K V × iterator) :=
  match position.next t.m_buckets with
  | none => none
  | some tmp =>
    match position.m_pair_iterator with
    | none => none
    | some (b, i) =>
      if b = position.m_bucket_iterator then
        some ({ t with m_buckets :=
                  (t.m_buckets.modify (fun bucket => bucket.eraseIdx i)
                    position.m_bucket_iterator) },
              ⟨tmp.m_bucket_iterator, tmp.m_buckets_end,
                Option.map (fun q => if q.1 = b ∧ i < q.2 then (q.1, q.2 - 1) else q)
                  tmp.m_pair_iterator⟩)
      else none

/-- The mutator `erase(key)` (lines 295-302). -/
def erase (t : hash_table K V) (key : K) : Option (hash_table K V) :=
  match t.find key with
  | none => none
  | some position =>
    if position.ne t.m_buckets t.end_ then
      match t.erase_at position with
      | none => none
      | some (t', _) => some t'
    else some t

/-- The mutator `clear()` (lines 342-348). -/
def clear (t : hash_table K V) : hash_table K V :=
  { t with m_buckets := (resize t.m_buckets 1).modifyHead (fun _ => []), m_size := 0 }

/-- The accessor `operator[]` (lines 331-340): the table afterwards and the referenced value. -/
def subscript [Inhabited V] (t : hash_table K V) (key : K) : Option (hash_table K V × V) :=
  match t.find key with
  | none => none
  | some position =>
    if position.ne t.m_buckets t.end_ then
      match position.deref t.m_buckets with
      | none => none
      | some p => some (t, p.2)
    else
      match t.insert (key, default) with
      | none => none
      | some (t', position) =>
        match position.deref t'.m_buckets with
        | none => none
        | some p => some (t', p.2)

/-- The loop `for (...) insert(*it);` of the range and initializer-list constructors. -/
def insert_all (t : hash_table K V) : List (K × V) → Option (hash_table K V)
  | [] => some t
  | value :: rest =>
    match t.insert value with
    | none => none
    | some (t', _) => insert_all t' rest

/-- The range constructor `hash_table(first, last, buckets, hash, key_eq)` (lines 145-161). -/
def from_range (range : List (K × V)) (buckets : Nat) (hash : K → Nat)
    (key_eq : K → K → Bool) : Option (hash_table K V) :=
  insert_all (construct buckets hash key_eq) range

/-- The initializer-list constructor (lines 175-190); the `float` quotient
`il.size() / m_max_load_factor` is truncated to a `size_type`. -/
def from_initializer_list (il : List (K × V)) (buckets : Nat) (hash : K → Nat)
    (key_eq : K → K → Bool) : Option (hash_table K V) :=
  let t : hash_table K V := construct buckets hash key_eq
  match t.rehash ⌊((il.length : Nat) : ℚ) / t.m_max_load_factor⌋₊ with
  | none => none
  | some t' => insert_all t' il

/-- The pairs of the table in bucket-array order, front to back within each bucket. -/
def entries (t : hash_table K V) : List (K × V) := t.m_buckets.flatten

end hash_table

/-! ## Specification vocabulary -/

section vocabulary

variable {K V : Type}

/-- The pairs still to be visited by a traversal standing on node `i` of bucket `b`. -/
def remaining (bs : Buckets K V) (b i : Nat) : List (K × V) :=
  (bucket_at bs b).drop i ++ (bs.drop (b + 1)).flatten

/-- One step of the loop of `rehash`, as a total function on a non-empty bucket array. -/
def place (hash : K → Nat) (new_buckets : Buckets K V) (value : K × V) : Buckets K V :=
  new_buckets.modify (fun bucket => value :: bucket) (hash value.1 % new_buckets.length)

/-- Every pair sits in the bucket its key hashes to: bucket `hash(key) mod bucket_count`. -/
def placed (hash : K → Nat) (bs : Buckets K V) : Prop :=
  ∀ b, b < bs.length → ∀ e ∈ bucket_at bs b, hash e.1 % bs.length = b

/-- The key predicate decides equality of keys, as `std::equal_to<Key>` does. -/
def key_equal_is_eq (key_equal : K → K → Bool) : Prop :=
  ∀ a b, key_equal a b = true ↔ a = b

/-- A well-formed table: at least one bucket, every pair in bucket `hash(key) mod bucket_count`,
keys unique over the whole table. -/
def well_formed (t : hash_table K V) : Prop :=
  0 < t.m_buckets.length ∧ placed t.m_hasher t.m_buckets ∧ (t.entries.map Prod.fst).Nodup

/-- What `find(key)` yields to a caller: `some (some p)` when the iterator differs from `end()`
and refers to the pair `p`, `some none` when it compares equal to `end()`. -/
def lookup (t : hash_table K V) (key : K) : Option (Option (K × V)) :=
  match t.find key with
  | none => none
  | some it => if it.ne t.m_buckets t.end_ then some (it.deref t.m_buckets) else some none

/-- The bucket array in which `insert` places a new pair: the old array, or, when
`rehash_needed()` holds after `++m_size`, the array rebuilt by `rehash(m_buckets.size() + 1)`. -/
def grown (t : hash_table K V) : Buckets K V :=
  if hash_table.rehash_needed { t with m_size := t.m_size + 1 } then
    t.m_buckets.flatten.foldl (place t.m_hasher) (List.replicate (t.m_buckets.length + 1) [])
  else t.m_buckets

/-- A call of one of the mutators. -/
inductive call (K V : Type) where
  | insert (key : K) (value : V)
  | erase (key : K)
  | erase_at (position : iterator)
  | clear
  | rehash (buckets : Nat)

/-- The table after one call, `none` when the call is undefined. -/
def call.apply (t : hash_table K V) : call K V → Option (hash_table K V)
  | .insert key value => (t.insert (key, value)).map Prod.fst
  | .erase key => t.erase key
  | .erase_at position => (t.erase_at position).map Prod.fst
  | .clear => some t.clear
  | .rehash buckets => t.rehash buckets

/-- The table after a sequence of calls. -/
def run (t : hash_table K V) : List (call K V) → Option (hash_table K V)
  | [] => some t
  | c :: rest =>
    match c.apply t with
    | none => none
    | some t' => run t' rest

/-- A call of `rehash` asks for at least one bucket. -/
def call.positive : call K V → Prop
  | .rehash buckets => 1 ≤ buckets
  | _ => True

/-- A call that takes no iterator argument. -/
def call.by_key : call K V → Prop
  | .erase_at _ => False
  | _ => True

instance placed_decidable (hash : K → Nat) (bs : Buckets K V) : Decidable (placed hash bs) :=
  inferInstanceAs
    (Decidable (∀ b, b < bs.length → ∀ e ∈ bucket_at bs b, hash e.1 % bs.length = b))

instance well_formed_decidable [DecidableEq K] (t : hash_table K V) :
    Decidable (well_formed t) :=
  inferInstanceAs (Decidable (0 < t.m_buckets.length ∧ placed t.m_hasher t.m_buckets ∧
    (t.entries.map Prod.fst).Nodup))

instance call.positive_decidable : (c : call K V) → Decidable c.positive
  | .rehash buckets => inferInstanceAs (Decidable (1 ≤ buckets))
  | .insert _ _ => isTrue True.intro
  | .erase _ => isTrue True.intro
  | .erase_at _ => isTrue True.intro
  | .clear => isTrue True.intro

instance call.by_key_decidable : (c : call K V) → Decidable c.by_key
  | .erase_at _ => isFalse (fun h => h)
  | .insert _ _ => isTrue True.intro
  | .erase _ => isTrue True.intro
  | .rehash _ => isTrue True.intro
  | .clear => isTrue True.intro

end vocabulary

/-! ## The instance of the unit tests: `std::hash_table<int, char>` -/

/-- The hash `std::hash<int>`, the identity on the keys the tests use. -/
def std_hash (key : Nat) : Nat := key

/-- The predicate `std::equal_to<int>`. -/
def std_equal_to (a b : Nat) : Bool := a == b

/-- The table `std::hash_table<int, char> empty;` of `default_constructor()`. -/
def default_table : hash_table Nat Char := hash_table.construct 1 std_hash std_equal_to

/-- The table that `{{1, 'A'}, {2, 'B'}, {3, 'A'}, {4, 'G'}}` builds in
`initialize_list_constructor()`. -/
def list_table : hash_table Nat Char :=
  { m_buckets := [[(4, 'G'), (2, 'B')], [(3, 'A'), (1, 'A')]]
    m_size := 4
    m_max_load_factor := DEFAULT_MAX_LOAD_FACTOR
    m_hasher := std_hash
    m_key_equal := std_equal_to }

/-- The table `list_table` after `insert(5, 'Z')`: five pairs in two buckets. -/
def five_table : hash_table Nat Char :=
  { m_buckets := [[(4, 'G'), (2, 'B')], [(5, 'Z'), (3, 'A'), (1, 'A')]]
    m_size := 5
    m_max_load_factor := DEFAULT_MAX_LOAD_FACTOR
    m_hasher := std_hash
    m_key_equal := std_equal_to }

/-- A sequence of calls that mixes the four mutators, an in-place update and two rehashes. -/
def sample_calls : List (call Nat Char) :=
  [call.insert 1 'A', call.insert 2 'B', call.insert 3 'A', call.rehash 5, call.erase 2,
   call.insert 3 'Q', call.clear, call.insert 4 'G', call.insert 9 'I', call.rehash 2]

/-! ## Copy, move and traversal -/

namespace hash_table

variable {K V : Type}

/-- The copy constructor `hash_table(const hash_table& that) = default` (line 163): the new
table, and `that` afterwards (a `const` reference, left as it was). -/
def copy_construct (that : hash_table K V) : hash_table K V × hash_table K V :=
  ({ m_buckets := that.m_buckets
     m_size := that.m_size
     m_max_load_factor := that.m_max_load_factor
     m_hasher := that.m_hasher
     m_key_equal := that.m_key_equal }, that)

/-- The copy assignment `operator=(const hash_table& that)` (lines 196-206) on two distinct
objects: the assigned table, and `that` afterwards. -/
def copy_assign (_this that : hash_table K V) : hash_table K V × hash_table K V :=
  ({ m_buckets := that.m_buckets
     m_size := that.m_size
     m_max_load_factor := that.m_max_load_factor
     m_hasher := that.m_hasher
     m_key_equal := that.m_key_equal }, that)

/-- The move constructor `hash_table(hash_table&& that)` (lines 165-173): the new table, and
`that` afterwards.  The moved-from `std::vector` is empty; `that.m_size` is set to zero. -/
def move_construct (that : hash_table K V) : hash_table K V × hash_table K V :=
  ({ m_buckets := that.m_buckets
     m_size := that.m_size
     m_max_load_factor := that.m_max_load_factor
     m_hasher := that.m_hasher
     m_key_equal := that.m_key_equal },
   { that with m_buckets := [], m_size := 0 })

/-- The move assignment `operator=(hash_table&& that)` (lines 208-219) on two distinct objects:
the assigned table, and `that` afterwards.  The buckets are copied by `assign`, so `that` keeps
its bucket array; `that.m_size` is set to zero. -/
def move_assign (_this that : hash_table K V) : hash_table K V × hash_table K V :=
  ({ m_buckets := that.m_buckets
     m_size := that.m_size
     m_max_load_factor := that.m_max_load_factor
     m_hasher := that.m_hasher
     m_key_equal := that.m_key_equal },
   { that with m_size := 0 })

/-- The loop `for (it = begin(); it != end(); ++it) out.push_back(*it);`: the pairs a full
traversal visits, in order. -/
def collect (t : hash_table K V) : Option (List (K × V)) :=
  range_for t.m_buckets t.end_ (fun acc value => some (acc ++ [value])) (stored t.m_buckets)
    t.begin []

end hash_table

/-- The iterator after `n` applications of `operator++`. -/
def advance {K V : Type} (bs : Buckets K V) : Nat → iterator → Option iterator
  | 0, it => some it
  | n + 1, it =>
    match it.next bs with
    | none => none
    | some it' => advance bs n it'

/-- The iterator of this table that refers to node `i` of bucket `b`. -/
def node_iterator {K V : Type} (bs : Buckets K V) (b i : Nat) : iterator :=
  ⟨b, bs.length, some (b, i)⟩

/-- The pairs a traversal has visited before it stands on node `i` of bucket `b`. -/
def visited {K V : Type} (bs : Buckets K V) (b i : Nat) : List (K × V) :=
  (bs.take b).flatten ++ (bucket_at bs b).take i

/-- The pairs `test::initialize` inserts: keys `0 .. n - 1`, values `char(i % 26 + 65)`. -/
def initialize_values (n : Nat) : List (Nat × Char) :=
  (List.range n).map (fun i => (i, Char.ofNat (i % 26 + 65)))

section traversal

variable {K V : Type}

theorem bucket_at_eq_getElem (bs : Buckets K V) (b : Nat) (h : b < bs.length) :
    bucket_at bs b = bs[b] := by
  simp [bucket_at, List.getD_eq_getElem?_getD, List.getElem?_eq_getElem h]

theorem bucket_at_mem (bs : Buckets K V) (b : Nat) (h : b < bs.length) :
    bucket_at bs b ∈ bs := by
  rw [bucket_at_eq_getElem bs b h]; exact List.getElem_mem h

theorem drop_eq_bucket_at_cons (bs : Buckets K V) (b : Nat) (h : b < bs.length) :
    bs.drop b = bucket_at bs b :: bs.drop (b + 1) := by
  rw [bucket_at_eq_getElem bs b h]; exact List.drop_eq_getElem_cons h

/-- The bucket-skipping loop stops inside the array at the first non-empty bucket, or at the end
of the array; the buckets it passes hold nothing. -/
theorem skip_empty_spec (bs : Buckets K V) :
    ∀ fuel i, i + fuel = bs.length →
      i ≤ skip_empty bs bs.length fuel i ∧ skip_empty bs bs.length fuel i ≤ bs.length ∧
      (bs.drop i).flatten = (bs.drop (skip_empty bs bs.length fuel i)).flatten ∧
      (skip_empty bs bs.length fuel i < bs.length →
        bucket_at bs (skip_empty bs bs.length fuel i) ≠ []) := by
  intro fuel
  induction fuel with
  | zero =>
    intro i hi
    have hs : skip_empty bs bs.length 0 i = i := rfl
    rw [hs]
    exact ⟨le_refl _, by omega, rfl, fun h => by omega⟩
  | succ fuel ih =>
    intro i hi
    have hlt : i < bs.length := by omega
    by_cases he : bucket_at bs i = []
    · have hs : skip_empty bs bs.length (fuel + 1) i = skip_empty bs bs.length fuel (i + 1) := by
        have hc : i ≠ bs.length ∧ (bucket_at bs i).isEmpty = true := ⟨by omega, by simp [he]⟩
        simp only [skip_empty, if_pos hc]
      rw [hs]
      obtain ⟨h1, h2, h3, h4⟩ := ih (i + 1) (by omega)
      refine ⟨by omega, h2, ?_, h4⟩
      rw [← h3, drop_eq_bucket_at_cons bs i hlt, he]
      simp
    · have hs : skip_empty bs bs.length (fuel + 1) i = i := by
        have hc : ¬ (i ≠ bs.length ∧ (bucket_at bs i).isEmpty = true) := by
          simp [List.isEmpty_iff, he]
        simp only [skip_empty, if_neg hc]
      rw [hs]
      exact ⟨le_refl _, by omega, rfl, fun _ => he⟩

theorem range_for_done {β : Type} (bs : Buckets K V) (e : iterator)
    (f : β → K × V → Option β) (fuel : Nat) (it : iterator) (acc : β)
    (h : it.ne bs e = false) : range_for bs e f fuel it acc = some acc := by
  cases fuel <;> simp [range_for, h]

theorem ne_end_of_pos (bs : Buckets K V) (b i : Nat) (hb : b < bs.length)
    (hi : i < (bucket_at bs b).length) :
    iterator.ne bs ⟨b, bs.length, some (b, i)⟩ ⟨bs.length, bs.length, none⟩ = true := by
  have h1 : b ≠ bs.length := by omega
  have h2 : i ≠ (bucket_at bs b).length := by omega
  simp [iterator.ne, iterator.eq, iterator.at_end, h1, h2]

/-- From a live node the loop visits exactly the remaining pairs, in order. -/
theorem range_for_pos {β : Type} (bs : Buckets K V) (f : β → K × V → Option β) :
    ∀ fuel b i acc, b < bs.length → i < (bucket_at bs b).length →
      (remaining bs b i).length ≤ fuel →
      range_for bs ⟨bs.length, bs.length, none⟩ f fuel ⟨b, bs.length, some (b, i)⟩ acc
        = (remaining bs b i).foldlM f acc := by
  intro fuel
  induction fuel with
  | zero =>
    intro b i acc hb hi hf
    simp [remaining] at hf
    omega
  | succ fuel ih =>
    intro b i acc hb hi hf
    have hrem : remaining bs b i = (bucket_at bs b)[i] :: remaining bs b (i + 1) := by
      unfold remaining
      rw [List.drop_eq_getElem_cons hi]; rfl
    rw [hrem, List.foldlM_cons]
    rw [hrem] at hf
    simp only [List.length_cons] at hf
    have hderef : iterator.deref bs ⟨b, bs.length, some (b, i)⟩ = some (bucket_at bs b)[i] := by
      simp [iterator.deref, List.getElem?_eq_getElem hi]
    simp only [range_for, ne_end_of_pos bs b i hb hi, if_true, hderef]
    cases hfa : f acc (bucket_at bs b)[i] with
    | none => simp
    | some acc1 =>
      simp only [Option.some_bind, Option.bind_eq_bind]
      by_cases hlast : i + 1 = (bucket_at bs b).length
      · -- the bucket is exhausted: skip to the next non-empty bucket
        obtain ⟨h1, h2, h3, h4⟩ := skip_empty_spec bs (bs.length - (b + 1)) (b + 1) (by omega)
        have hrem1 : remaining bs b (i + 1) = (bs.drop (b + 1)).flatten := by
          simp [remaining, hlast]
        by_cases hr : skip_empty bs bs.length (bs.length - (b + 1)) (b + 1) = bs.length
        · have hnext : iterator.next bs ⟨b, bs.length, some (b, i)⟩
              = some ⟨bs.length, bs.length, some (b, i + 1)⟩ := by
            simp [iterator.next, hi, hb, hlast, hr]
          rw [hnext]
          simp only []
          rw [range_for_done]
          · rw [hrem1, h3, hr]; simp
          · simp [iterator.ne, iterator.eq, iterator.at_end]
        · have hnext : iterator.next bs ⟨b, bs.length, some (b, i)⟩
              = some ⟨skip_empty bs bs.length (bs.length - (b + 1)) (b + 1), bs.length,
                  some (skip_empty bs bs.length (bs.length - (b + 1)) (b + 1), 0)⟩ := by
            simp [iterator.next, hi, hb, hlast, hr]
          rw [hnext]
          simp only []
          have hr2 : skip_empty bs bs.length (bs.length - (b + 1)) (b + 1) < bs.length := by omega
          have hne := h4 hr2
          have hrem2 : remaining bs (skip_empty bs bs.length (bs.length - (b + 1)) (b + 1)) 0
              = remaining bs b (i + 1) := by
            rw [hrem1, h3, drop_eq_bucket_at_cons bs _ hr2]
            simp [remaining]
          rw [ih _ 0 acc1 hr2 (List.length_pos.mpr hne) (by rw [hrem2]; omega), hrem2]
      · have hi2 : i + 1 < (bucket_at bs b).length := by omega
        have hnext : iterator.next bs ⟨b, bs.length, some (b, i)⟩
            = some ⟨b, bs.length, some (b, i + 1)⟩ := by
          simp [iterator.next, hi, hb, hlast]
        rw [hnext]
        simp only []
        rw [ih b (i + 1) acc1 hb hi2 (by omega)]

theorem length_flatten_eq_stored (bs : Buckets K V) :
    bs.flatten.length = hash_table.stored bs := by
  simp [hash_table.stored, List.length_flatten]

/-- A full traversal `for (value : *this)` runs its body on the concatenation of the buckets. -/
theorem range_for_begin {β : Type} (t : hash_table K V) (f : β → K × V → Option β) (acc : β) :
    range_for t.m_buckets t.end_ f (hash_table.stored t.m_buckets) t.begin acc
      = t.m_buckets.flatten.foldlM f acc := by
  obtain ⟨h1, h2, h3, h4⟩ := skip_empty_spec t.m_buckets t.m_buckets.length 0 (by omega)
  simp only [List.drop_zero] at h3
  by_cases hr : skip_empty t.m_buckets t.m_buckets.length t.m_buckets.length 0
      = t.m_buckets.length
  · have hb : t.begin = ⟨t.m_buckets.length, t.m_buckets.length, none⟩ := by
      simp [hash_table.begin, hr]
    rw [hb, range_for_done]
    · rw [h3, hr]; simp
    · simp [iterator.ne, iterator.eq, iterator.at_end, hash_table.end_]
  · have hb : t.begin = ⟨skip_empty t.m_buckets t.m_buckets.length t.m_buckets.length 0,
        t.m_buckets.length,
        some (skip_empty t.m_buckets t.m_buckets.length t.m_buckets.length 0, 0)⟩ := by
      simp [hash_table.begin, hr]
    have hr2 : skip_empty t.m_buckets t.m_buckets.length t.m_buckets.length 0
        < t.m_buckets.length := by omega
    have hrem : remaining t.m_buckets
        (skip_empty t.m_buckets t.m_buckets.length t.m_buckets.length 0) 0
        = t.m_buckets.flatten := by
      rw [h3, drop_eq_bucket_at_cons _ _ hr2]; simp [remaining]
    rw [hb, hash_table.end_, range_for_pos _ _ _ _ 0 acc hr2 (List.length_pos.mpr (h4 hr2))
      (by rw [hrem, length_flatten_eq_stored]), hrem]

end traversal

section rehashing

variable {K V : Type}

theorem length_place (hash : K → Nat) (nb : Buckets K V) (v : K × V) :
    (place hash nb v).length = nb.length := by
  simp [place]

theorem length_foldl_place (hash : K → Nat) (l : List (K × V)) :
    ∀ nb : Buckets K V, (l.foldl (place hash) nb).length = nb.length := by
  induction l with
  | nil => intro nb; rfl
  | cons v l ih => intro nb; rw [List.foldl_cons, ih, length_place]

theorem foldlM_rehash_step (hash : K → Nat) (l : List (K × V)) :
    ∀ nb : Buckets K V, 0 < nb.length →
      l.foldlM (hash_table.rehash_step hash) nb = some (l.foldl (place hash) nb) := by
  induction l with
  | nil => intro nb _; rfl
  | cons v l ih =>
    intro nb hnb
    have hstep : hash_table.rehash_step hash nb v = some (place hash nb v) := by
      have : nb.length ≠ 0 := by omega
      simp [hash_table.rehash_step, place, this]
    rw [List.foldlM_cons, hstep, List.foldl_cons]
    exact ih _ (by rw [length_place]; exact hnb)

/-- Closed form of `rehash(n)` for `n ≥ 1`: it always returns, with every pair of the old array
prepended, in iteration order, to its bucket of a fresh array of `n` buckets. -/
theorem rehash_eq (t : hash_table K V) (n : Nat) (hn : 0 < n) :
    t.rehash n = some { t with m_buckets :=
      t.m_buckets.flatten.foldl (place t.m_hasher) (List.replicate n []) } := by
  unfold hash_table.rehash
  rw [range_for_begin, foldlM_rehash_step _ _ _ (by simpa using hn)]

/-- On a table that stores no pair `rehash(n)` returns for every `n`, zero included. -/
theorem rehash_of_flatten_nil (t : hash_table K V) (n : Nat) (h : t.m_buckets.flatten = []) :
    t.rehash n = some { t with m_buckets := List.replicate n [] } := by
  unfold hash_table.rehash
  rw [range_for_begin, h]
  rfl

theorem bucket_at_modify (f : Bucket K V → Bucket K V) (bs : Buckets K V) (j b : Nat)
    (hb : b < bs.length) :
    bucket_at (bs.modify f j) b = if j = b then f (bucket_at bs b) else bucket_at bs b := by
  simp only [bucket_at, List.getD_eq_getElem?_getD, List.getElem?_modify,
    List.getElem?_eq_getElem hb]
  by_cases h : j = b <;> simp [h]

theorem flatten_modify_cons_perm (v : K × V) :
    ∀ (bs : Buckets K V) (j : Nat), j < bs.length →
      (bs.modify (fun bucket => v :: bucket) j).flatten.Perm (v :: bs.flatten) := by
  intro bs
  induction bs with
  | nil => intro j hj; simp at hj
  | cons b bs ih =>
    intro j hj
    cases j with
    | zero => simp
    | succ j =>
      simp only [List.modify_succ_cons, List.flatten_cons]
      have h := ih j (by simpa using hj)
      exact (List.Perm.append_left b h).trans List.perm_middle

theorem flatten_foldl_place_perm (hash : K → Nat) (l : List (K × V)) :
    ∀ nb : Buckets K V, 0 < nb.length →
      (l.foldl (place hash) nb).flatten.Perm (l ++ nb.flatten) := by
  induction l with
  | nil => intro nb _; simp
  | cons v l ih =>
    intro nb hnb
    rw [List.foldl_cons]
    refine (ih _ (by rw [length_place]; exact hnb)).trans ?_
    have h1 : (place hash nb v).flatten.Perm (v :: nb.flatten) :=
      flatten_modify_cons_perm v nb _ (Nat.mod_lt _ hnb)
    exact (List.Perm.append_left l h1).trans List.perm_middle

theorem placed_modify_cons (hash : K → Nat) (bs : Buckets K V) (v : K × V)
    (h : placed hash bs) :
    placed hash (bs.modify (fun bucket => v :: bucket) (hash v.1 % bs.length)) := by
  intro b hb e he
  rw [List.length_modify] at hb ⊢
  rw [bucket_at_modify _ _ _ _ hb] at he
  by_cases hj : hash v.1 % bs.length = b
  · rw [if_pos hj] at he
    rcases List.mem_cons.mp he with rfl | he
    · exact hj
    · exact h b hb e he
  · rw [if_neg hj] at he
    exact h b hb e he

theorem placed_foldl_place (hash : K → Nat) (l : List (K × V)) :
    ∀ nb : Buckets K V, placed hash nb → placed hash (l.foldl (place hash) nb) := by
  induction l with
  | nil => intro nb h; exact h
  | cons v l ih => intro nb h; exact ih _ (placed_modify_cons hash nb v h)

theorem bucket_at_replicate (n b : Nat) : bucket_at (List.replicate n ([] : Bucket K V)) b = [] := by
  simp only [bucket_at, List.getD_eq_getElem?_getD, List.getElem?_replicate]
  split <;> rfl

theorem placed_replicate (hash : K → Nat) (n : Nat) :
    placed hash (List.replicate n ([] : Bucket K V)) := by
  intro b _ e he
  rw [bucket_at_replicate] at he
  simp at he

theorem flatten_replicate_nil (n : Nat) : (List.replicate n ([] : Bucket K V)).flatten = [] := by
  induction n with
  | zero => rfl
  | succ n ih => simp [List.replicate_succ, ih]

end rehashing

section finding

variable {K V : Type}

theorem find_pair_add (keq : K → K → Bool) (k : K) (l : Bucket K V) :
    ∀ i, find_pair keq k l i = i + find_pair keq k l 0 := by
  induction l with
  | nil => intro i; simp [find_pair]
  | cons p l ih =>
    intro i
    by_cases h : keq k p.1 = true
    · simp [find_pair, h]
    · simp only [find_pair, h, if_false, Bool.false_eq_true]
      rw [ih (i + 1), ih (0 + 1)]; omega

theorem find_pair_le (keq : K → K → Bool) (k : K) (l : Bucket K V) :
    find_pair keq k l 0 ≤ l.length := by
  induction l with
  | nil => simp [find_pair]
  | cons p l ih =>
    by_cases h : keq k p.1 = true
    · simp [find_pair, h]
    · simp only [find_pair, h, if_false, Bool.false_eq_true]
      rw [find_pair_add]; simp only [List.length_cons]; omega

/-- The node `find` stops at holds the first pair of the bucket whose key matches. -/
theorem getElem?_find_pair (keq : K → K → Bool) (k : K) (l : Bucket K V) :
    l[find_pair keq k l 0]? = l.find? (fun p => keq k p.1) := by
  induction l with
  | nil => simp [find_pair]
  | cons p l ih =>
    by_cases h : keq k p.1 = true
    · simp [find_pair, h]
    · simp only [find_pair, h, if_false, Bool.false_eq_true]
      rw [find_pair_add, List.find?_cons]
      simp only [h]
      rw [← ih, Nat.add_comm, List.getElem?_cons_succ]

theorem find_pair_eq_length_iff (keq : K → K → Bool) (k : K) (l : Bucket K V) :
    find_pair keq k l 0 = l.length ↔ ∀ p ∈ l, keq k p.1 = false := by
  induction l with
  | nil => simp [find_pair]
  | cons p l ih =>
    by_cases h : keq k p.1 = true
    · simp [find_pair, h]
    · simp only [find_pair, h, if_false, Bool.false_eq_true]
      rw [find_pair_add]
      simp only [List.length_cons, List.mem_cons, forall_eq_or_imp]
      rw [← ih]
      simp only [Bool.not_eq_true] at h
      constructor
      · intro h1; exact ⟨h, by omega⟩
      · intro h1; omega

theorem find_eq (t : hash_table K V) (k : K) (hlen : 0 < t.m_buckets.length) :
    t.find k = some ⟨t.m_hasher k % t.m_buckets.length, t.m_buckets.length,
      some (t.m_hasher k % t.m_buckets.length,
        find_pair t.m_key_equal k
          (bucket_at t.m_buckets (t.m_hasher k % t.m_buckets.length)) 0)⟩ := by
  have : t.m_buckets.length ≠ 0 := by omega
  simp [hash_table.find, this]

/-- An iterator that `find` returns differs from `end()` exactly when its pair iterator is not
the `end()` of its bucket. -/
theorem ne_end_iff (t : hash_table K V) (b i : Nat) (hb : b < t.m_buckets.length) :
    iterator.ne t.m_buckets ⟨b, t.m_buckets.length, some (b, i)⟩ t.end_
      = decide (i ≠ (bucket_at t.m_buckets b).length) := by
  have h1 : b ≠ t.m_buckets.length := by omega
  by_cases h2 : i = (bucket_at t.m_buckets b).length
  · simp [iterator.ne, iterator.eq, iterator.at_end, hash_table.end_, h2]
  · simp [iterator.ne, iterator.eq, iterator.at_end, hash_table.end_, h1, h2]

/-- Closed form of what `find` yields on a table with at least one bucket. -/
theorem lookup_eq (t : hash_table K V) (k : K) (hlen : 0 < t.m_buckets.length) :
    lookup t k = some ((bucket_at t.m_buckets (t.m_hasher k % t.m_buckets.length)).find?
      (fun p => t.m_key_equal k p.1)) := by
  have hb : t.m_hasher k % t.m_buckets.length < t.m_buckets.length := Nat.mod_lt _ hlen
  simp only [lookup, find_eq t k hlen, ne_end_iff t _ _ hb]
  by_cases h : find_pair t.m_key_equal k
      (bucket_at t.m_buckets (t.m_hasher k % t.m_buckets.length)) 0
      = (bucket_at t.m_buckets (t.m_hasher k % t.m_buckets.length)).length
  · have h2 := (find_pair_eq_length_iff _ _ _).mp h
    simp only [h, ne_eq, not_true_eq_false, decide_False, Bool.false_eq_true, if_false]
    congr 1
    symm
    rw [List.find?_eq_none]
    intro p hp
    simp [h2 p hp]
  · simp only [h, ne_eq, not_false_eq_true, decide_True, if_true, iterator.deref]
    rw [getElem?_find_pair]

theorem mem_entries_iff (t : hash_table K V) (e : K × V) :
    e ∈ t.entries ↔ ∃ b, b < t.m_buckets.length ∧ e ∈ bucket_at t.m_buckets b := by
  simp only [hash_table.entries, List.mem_flatten]
  constructor
  · rintro ⟨l, hl, he⟩
    obtain ⟨b, hb, rfl⟩ := List.getElem_of_mem hl
    exact ⟨b, hb, by rw [bucket_at_eq_getElem _ _ hb]; exact he⟩
  · rintro ⟨b, hb, he⟩
    exact ⟨_, bucket_at_mem _ _ hb, he⟩

theorem eq_of_mem_of_nodup_keys {l : List (K × V)} (h : (l.map Prod.fst).Nodup)
    {e e' : K × V} (he : e ∈ l) (he' : e' ∈ l) (hk : e.1 = e'.1) : e = e' :=
  List.inj_on_of_nodup_map h he he' hk

/-- On a well-formed table `find(k)` yields the pair `e` exactly when `e` is stored in the table
under the key `k`. -/
theorem lookup_eq_some_iff (t : hash_table K V) (hk : key_equal_is_eq t.m_key_equal)
    (hwf : well_formed t) (k : K) (e : K × V) :
    lookup t k = some (some e) ↔ e ∈ t.entries ∧ e.1 = k := by
  obtain ⟨hlen, hpl, hnd⟩ := hwf
  have hb : t.m_hasher k % t.m_buckets.length < t.m_buckets.length := Nat.mod_lt _ hlen
  rw [lookup_eq t k hlen]
  simp only [Option.some.injEq]
  constructor
  · intro h
    have h1 := List.find?_some h
    have h2 := List.mem_of_find?_eq_some h
    refine ⟨(mem_entries_iff t e).mpr ⟨_, hb, h2⟩, ?_⟩
    exact ((hk _ _).mp h1).symm
  · rintro ⟨he, rfl⟩
    obtain ⟨b, hblt, heb⟩ := (mem_entries_iff t e).mp he
    have hbe := hpl b hblt e heb
    subst hbe
    cases hf : (bucket_at t.m_buckets (t.m_hasher e.1 % t.m_buckets.length)).find?
        (fun p => t.m_key_equal e.1 p.1) with
    | none =>
      rw [List.find?_eq_none] at hf
      exact absurd ((hk _ _).mpr rfl) (hf e heb)
    | some e' =>
      have h1 := List.find?_some hf
      have h2 := List.mem_of_find?_eq_some hf
      have h3 : e' ∈ t.entries := (mem_entries_iff t e').mpr ⟨_, hb, h2⟩
      rw [eq_of_mem_of_nodup_keys hnd he h3 ((hk _ _).mp h1)]

theorem lookup_isSome (t : hash_table K V) (k : K) (hlen : 0 < t.m_buckets.length) :
    ∃ o, lookup t k = some o := ⟨_, lookup_eq t k hlen⟩

/-- Two well-formed tables that store the same pairs under `k` answer `find(k)` alike. -/
theorem lookup_congr (t t' : hash_table K V) (hk : key_equal_is_eq t.m_key_equal)
    (hk' : key_equal_is_eq t'.m_key_equal) (hwf : well_formed t) (hwf' : well_formed t') (k : K)
    (h : ∀ e : K × V, e.1 = k → (e ∈ t'.entries ↔ e ∈ t.entries)) :
    lookup t' k = lookup t k := by
  obtain ⟨o, ho⟩ := lookup_isSome t k hwf.1
  obtain ⟨o', ho'⟩ := lookup_isSome t' k hwf'.1
  rw [ho, ho']
  congr 1
  apply Option.ext
  intro e
  have h1 := lookup_eq_some_iff t hk hwf k e
  have h2 := lookup_eq_some_iff t' hk' hwf' k e
  rw [ho] at h1
  rw [ho'] at h2
  simp only [Option.some.injEq] at h1 h2
  simp only [Option.mem_def]
  rw [h1, h2]
  constructor
  · rintro ⟨a, b⟩; exact ⟨(h e b).mp a, b⟩
  · rintro ⟨a, b⟩; exact ⟨(h e b).mpr a, b⟩

end finding

section inserting

variable {K V : Type}

theorem placed_of_length_eq {hash : K → Nat} {bs bs' : Buckets K V} (hl : bs'.length = bs.length)
    (h : placed hash bs)
    (hsub : ∀ b, b < bs.length → ∀ e ∈ bucket_at bs' b, ∃ e' ∈ bucket_at bs b, e'.1 = e.1) :
    placed hash bs' := by
  intro b hb e he
  rw [hl] at hb ⊢
  obtain ⟨e', he', hk⟩ := hsub b hb e he
  rw [← hk]
  exact h b hb e' he'

theorem modify_eq_map (F G : Bucket K V → Bucket K V) (bs : Buckets K V) (b : Nat)
    (h1 : F (bucket_at bs b) = G (bucket_at bs b))
    (h2 : ∀ j, j < bs.length → j ≠ b → G (bucket_at bs j) = bucket_at bs j) :
    bs.modify F b = bs.map G := by
  apply List.ext_getElem?
  intro j
  rw [List.getElem?_modify, List.getElem?_map]
  by_cases hj : j < bs.length
  · rw [List.getElem?_eq_getElem hj]
    simp only [Option.map_some', Option.some.injEq]
    rw [← bucket_at_eq_getElem bs j hj]
    by_cases hbj : b = j
    · subst hbj; simp [h1]
    · simp only [hbj, if_false]
      exact congrArg some (h2 j hj (fun h => hbj h.symm)).symm
  · rw [List.getElem?_eq_none (by omega)]
    rfl

theorem map_update_eq_self (keq : K → K → Bool) (k : K) (v : V) (l : Bucket K V)
    (h : ∀ p ∈ l, keq k p.1 = false) :
    l.map (fun p => if keq k p.1 then (p.1, v) else p) = l := by
  induction l with
  | nil => rfl
  | cons p l ih =>
    simp only [List.map_cons, h p (List.mem_cons_self _ _), Bool.false_eq_true, if_false]
    rw [ih (fun q hq => h q (List.mem_cons_of_mem _ hq))]

theorem filter_ne_eq_self (keq : K → K → Bool) (k : K) (l : Bucket K V)
    (h : ∀ p ∈ l, keq k p.1 = false) :
    l.filter (fun p => !keq k p.1) = l := by
  rw [List.filter_eq_self]
  intro p hp
  simp [h p hp]

theorem no_key_of_nodup_cons {keq : K → K → Bool} (hk : key_equal_is_eq keq) {k : K}
    {p : K × V} {l : Bucket K V} (hnd : ((p :: l).map Prod.fst).Nodup) (hp : keq k p.1 = true) :
    ∀ q ∈ l, keq k q.1 = false := by
  intro q hq
  have hpk : k = p.1 := (hk _ _).mp hp
  rw [List.map_cons, List.nodup_cons] at hnd
  cases hq1 : keq k q.1 with
  | false => rfl
  | true =>
    exfalso
    have hqk : k = q.1 := (hk _ _).mp hq1
    apply hnd.1
    rw [← hpk, hqk]
    exact List.mem_map_of_mem _ hq

/-- Overwriting the value in the node `find` stops at changes the value of the pair with key
`k` and nothing else. -/
theorem modify_find_pair_eq_map (keq : K → K → Bool) (hk : key_equal_is_eq keq) (k : K) (v : V) :
    ∀ l : Bucket K V, (l.map Prod.fst).Nodup →
      l.modify (fun p => (p.1, v)) (find_pair keq k l 0)
        = l.map (fun p => if keq k p.1 then (p.1, v) else p) := by
  intro l
  induction l with
  | nil => intro _; simp [find_pair]
  | cons p l ih =>
    intro hnd
    by_cases h : keq k p.1 = true
    · simp only [find_pair, h, if_true, List.modify_zero_cons, List.map_cons]
      rw [map_update_eq_self keq k v l (no_key_of_nodup_cons hk hnd h)]
    · simp only [find_pair, h, if_false, Bool.false_eq_true, List.map_cons]
      rw [find_pair_add, Nat.add_comm, List.modify_succ_cons,
        ih (by rw [List.map_cons, List.nodup_cons] at hnd; exact hnd.2)]

/-- Erasing the node `find` stops at removes the pair with key `k` and nothing else. -/
theorem eraseIdx_find_pair_eq_filter (keq : K → K → Bool) (hk : key_equal_is_eq keq) (k : K) :
    ∀ l : Bucket K V, (l.map Prod.fst).Nodup →
      l.eraseIdx (find_pair keq k l 0) = l.filter (fun p => !keq k p.1) := by
  intro l
  induction l with
  | nil => intro _; simp [find_pair]
  | cons p l ih =>
    intro hnd
    by_cases h : keq k p.1 = true
    · simp only [find_pair, h, if_true, List.eraseIdx_cons_zero]
      rw [List.filter_cons]
      simp only [h, Bool.not_true, Bool.false_eq_true, if_false]
      rw [filter_ne_eq_self keq k l (no_key_of_nodup_cons hk hnd h)]
    · simp only [find_pair, h, if_false, Bool.false_eq_true]
      rw [find_pair_add, Nat.add_comm, List.eraseIdx_cons_succ, List.filter_cons,
        ih (by rw [List.map_cons, List.nodup_cons] at hnd; exact hnd.2)]
      simp [h]

theorem nodup_keys_bucket (t : hash_table K V) (hnd : (t.entries.map Prod.fst).Nodup) (b : Nat)
    (hb : b < t.m_buckets.length) : ((bucket_at t.m_buckets b).map Prod.fst).Nodup := by
  have hsub : (bucket_at t.m_buckets b).Sublist t.entries :=
    List.sublist_flatten_of_mem (bucket_at_mem _ _ hb)
  exact (hsub.map Prod.fst).nodup hnd

/-- In a well-formed table a bucket other than `hash(k) mod bucket_count` holds no pair with a
key equal to `k`. -/
theorem no_key_other_bucket (t : hash_table K V) (hk : key_equal_is_eq t.m_key_equal)
    (hpl : placed t.m_hasher t.m_buckets) (k : K) (j : Nat) (hj : j < t.m_buckets.length)
    (hne : j ≠ t.m_hasher k % t.m_buckets.length) :
    ∀ p ∈ bucket_at t.m_buckets j, t.m_key_equal k p.1 = false := by
  intro p hp
  cases h : t.m_key_equal k p.1 with
  | false => rfl
  | true =>
    exfalso
    have hpk : k = p.1 := (hk _ _).mp h
    apply hne
    rw [hpk]
    exact (hpl j hj p hp).symm

end inserting

section insert_forms

variable {K V : Type}

theorem length_grown (t : hash_table K V) :
    (grown t).length = if hash_table.rehash_needed { t with m_size := t.m_size + 1 } then
      t.m_buckets.length + 1 else t.m_buckets.length := by
  unfold grown
  split
  · rw [length_foldl_place, List.length_replicate]
  · rfl

theorem length_grown_pos (t : hash_table K V) (hlen : 0 < t.m_buckets.length) :
    0 < (grown t).length := by
  rw [length_grown]; split <;> omega

theorem flatten_grown_perm (t : hash_table K V) : (grown t).flatten.Perm t.m_buckets.flatten := by
  unfold grown
  split
  · have h := flatten_foldl_place_perm t.m_hasher t.m_buckets.flatten
      (List.replicate (t.m_buckets.length + 1) []) (by simp)
    rw [flatten_replicate_nil, List.append_nil] at h
    exact h
  · exact List.Perm.refl _

theorem placed_grown (t : hash_table K V) (h : placed t.m_hasher t.m_buckets) :
    placed t.m_hasher (grown t) := by
  unfold grown
  split
  · exact placed_foldl_place _ _ _ (placed_replicate _ _)
  · exact h

/-- Closed form of `insert` when `find` stops at a pair: the value of that node is overwritten. -/
theorem insert_present (t : hash_table K V) (k : K) (v : V) (hlen : 0 < t.m_buckets.length)
    (h : find_pair t.m_key_equal k
        (bucket_at t.m_buckets (t.m_hasher k % t.m_buckets.length)) 0
      ≠ (bucket_at t.m_buckets (t.m_hasher k % t.m_buckets.length)).length) :
    t.insert (k, v) = some
      ({ t with m_buckets := (t.m_buckets.modify
          (fun bucket => bucket.modify (fun p => (p.1, v))
            (find_pair t.m_key_equal k
              (bucket_at t.m_buckets (t.m_hasher k % t.m_buckets.length)) 0))
          (t.m_hasher k % t.m_buckets.length)) },
       ⟨t.m_hasher k % t.m_buckets.length, t.m_buckets.length,
        some (t.m_hasher k % t.m_buckets.length,
          find_pair t.m_key_equal k
            (bucket_at t.m_buckets (t.m_hasher k % t.m_buckets.length)) 0)⟩) := by
  have hb : t.m_hasher k % t.m_buckets.length < t.m_buckets.length := Nat.mod_lt _ hlen
  simp only [hash_table.insert, find_eq t k hlen, ne_end_iff t _ _ hb]
  simp [h]

/-- Closed form of `insert` when `find` reaches the end of the bucket: the size is incremented,
the array is rebuilt with one more bucket if `rehash_needed()` says so, and the pair is prepended
to its bucket. -/
theorem insert_absent (t : hash_table K V) (k : K) (v : V) (hlen : 0 < t.m_buckets.length)
    (h : find_pair t.m_key_equal k
        (bucket_at t.m_buckets (t.m_hasher k % t.m_buckets.length)) 0
      = (bucket_at t.m_buckets (t.m_hasher k % t.m_buckets.length)).length) :
    t.insert (k, v) = some
      ({ t with m_size := t.m_size + 1, m_buckets := place t.m_hasher (grown t) (k, v) },
       ⟨t.m_hasher k % (grown t).length, (grown t).length,
        some (t.m_hasher k % (grown t).length, 0)⟩) := by
  have hb : t.m_hasher k % t.m_buckets.length < t.m_buckets.length := Nat.mod_lt _ hlen
  have hg := length_grown_pos t hlen
  have hg0 : (grown t).length ≠ 0 := by omega
  simp only [hash_table.insert, find_eq t k hlen, ne_end_iff t _ _ hb]
  simp only [h, ne_eq, not_true_eq_false, decide_False, Bool.false_eq_true, if_false]
  by_cases hr : hash_table.rehash_needed { t with m_size := t.m_size + 1 } = true
  · have hgr : grown t = t.m_buckets.flatten.foldl (place t.m_hasher)
        (List.replicate (t.m_buckets.length + 1) []) := by
      simp [grown, hr]
    rw [if_pos hr, rehash_eq _ _ (Nat.succ_pos _)]
    simp only []
    rw [← hgr]
    simp [hg0, place]
  · have hgr : grown t = t.m_buckets := by simp [grown, hr]
    rw [if_neg hr]
    simp only []
    rw [hgr] at hg0 ⊢
    simp [hg0, place]

end insert_forms

section preservation

variable {K V : Type}

theorem bucket_at_map (G : Bucket K V → Bucket K V) (bs : Buckets K V) (j : Nat)
    (hj : j < bs.length) : bucket_at (bs.map G) j = G (bucket_at bs j) := by
  simp [bucket_at, List.getD_eq_getElem?_getD, List.getElem?_eq_getElem hj]

theorem flatten_modify_sublist (F : Bucket K V → Bucket K V) (hF : ∀ l, (F l).Sublist l) :
    ∀ (bs : Buckets K V) (b : Nat), (bs.modify F b).flatten.Sublist bs.flatten := by
  intro bs
  induction bs with
  | nil => intro b; simp
  | cons x bs ih =>
    intro b
    cases b with
    | zero =>
      simp only [List.modify_zero_cons, List.flatten_cons]
      exact (hF x).append (List.Sublist.refl _)
    | succ b =>
      simp only [List.modify_succ_cons, List.flatten_cons]
      exact (List.Sublist.refl _).append (ih b)

/-- Shrinking one bucket to a sublist of itself keeps a table well formed. -/
theorem well_formed_modify_sublist (t : hash_table K V) (hwf : well_formed t)
    (F : Bucket K V → Bucket K V) (hF : ∀ l, (F l).Sublist l) (b : Nat) (n : Nat) :
    well_formed { t with m_buckets := t.m_buckets.modify F b, m_size := n } := by
  obtain ⟨hlen, hpl, hnd⟩ := hwf
  refine ⟨by simpa using hlen, ?_, ?_⟩
  · apply placed_of_length_eq (List.length_modify _ _ _) hpl
    intro j hj e he
    rw [bucket_at_modify _ _ _ _ hj] at he
    refine ⟨e, ?_, rfl⟩
    by_cases hbj : b = j
    · rw [if_pos hbj] at he; exact (hF _).subset he
    · rw [if_neg hbj] at he; exact he
  · exact ((flatten_modify_sublist F hF t.m_buckets b).map Prod.fst).nodup hnd

/-- The bucket array after `insert` of a key, whether present or not, on the path that
overwrites: every pair keeps its place and its key. -/
theorem update_eq_map (t : hash_table K V) (hk : key_equal_is_eq t.m_key_equal)
    (hwf : well_formed t) (k : K) (v : V) :
    t.m_buckets.modify
        (fun bucket => bucket.modify (fun p => (p.1, v))
          (find_pair t.m_key_equal k
            (bucket_at t.m_buckets (t.m_hasher k % t.m_buckets.length)) 0))
        (t.m_hasher k % t.m_buckets.length)
      = t.m_buckets.map (List.map (fun p => if t.m_key_equal k p.1 then (p.1, v) else p)) := by
  obtain ⟨hlen, hpl, hnd⟩ := hwf
  have hb : t.m_hasher k % t.m_buckets.length < t.m_buckets.length := Nat.mod_lt _ hlen
  apply modify_eq_map
  · exact modify_find_pair_eq_map _ hk k v _ (nodup_keys_bucket t hnd _ hb)
  · intro j hj hne
    exact map_update_eq_self _ k v _ (no_key_other_bucket t hk hpl k j hj hne)

/-- The bucket array after erasing the node `find(k)` stops at: the pair with key `k` is gone
and every other pair keeps its bucket and its relative place. -/
theorem erase_eq_map (t : hash_table K V) (hk : key_equal_is_eq t.m_key_equal)
    (hwf : well_formed t) (k : K) :
    t.m_buckets.modify
        (fun bucket => bucket.eraseIdx
          (find_pair t.m_key_equal k
            (bucket_at t.m_buckets (t.m_hasher k % t.m_buckets.length)) 0))
        (t.m_hasher k % t.m_buckets.length)
      = t.m_buckets.map (List.filter (fun p => !t.m_key_equal k p.1)) := by
  obtain ⟨hlen, hpl, hnd⟩ := hwf
  have hb : t.m_hasher k % t.m_buckets.length < t.m_buckets.length := Nat.mod_lt _ hlen
  apply modify_eq_map
  · exact eraseIdx_find_pair_eq_filter _ hk k _ (nodup_keys_bucket t hnd _ hb)
  · intro j hj hne
    exact filter_ne_eq_self _ k _ (no_key_other_bucket t hk hpl k j hj hne)

theorem well_formed_update (t : hash_table K V) (hwf : well_formed t) (g : K × V → K × V)
    (hg : ∀ p, (g p).1 = p.1) :
    well_formed { t with m_buckets := t.m_buckets.map (List.map g) } := by
  obtain ⟨hlen, hpl, hnd⟩ := hwf
  refine ⟨by simpa using hlen, ?_, ?_⟩
  · apply placed_of_length_eq (List.length_map _ _) hpl
    intro j hj e he
    rw [bucket_at_map _ _ _ hj] at he
    obtain ⟨e', he', rfl⟩ := List.mem_map.mp he
    exact ⟨e', he', (hg e').symm⟩
  · have h1 : (List.map (List.map g) t.m_buckets).flatten = t.m_buckets.flatten.map g :=
      (List.map_flatten g t.m_buckets).symm
    simp only [hash_table.entries] at hnd ⊢
    rw [h1, List.map_map]
    have h2 : (Prod.fst ∘ g) = (Prod.fst : K × V → K) := by
      funext p; exact hg p
    rw [h2]; exact hnd

/-- The key is absent from a well-formed table exactly when `find` runs to the end of the
bucket `hash(k) mod bucket_count`. -/
theorem find_pair_eq_length_iff_absent (t : hash_table K V) (hk : key_equal_is_eq t.m_key_equal)
    (hwf : well_formed t) (k : K) :
    find_pair t.m_key_equal k (bucket_at t.m_buckets (t.m_hasher k % t.m_buckets.length)) 0
        = (bucket_at t.m_buckets (t.m_hasher k % t.m_buckets.length)).length
      ↔ ∀ e ∈ t.entries, e.1 ≠ k := by
  obtain ⟨hlen, hpl, hnd⟩ := hwf
  have hb : t.m_hasher k % t.m_buckets.length < t.m_buckets.length := Nat.mod_lt _ hlen
  rw [find_pair_eq_length_iff]
  constructor
  · intro h e he hek
    obtain ⟨j, hj, hej⟩ := (mem_entries_iff t e).mp he
    have hjb := hpl j hj e hej
    rw [hek] at hjb
    subst hjb
    have h1 := h e hej
    rw [← hek, (hk e.1 e.1).mpr rfl] at h1
    exact Bool.noConfusion h1
  · intro h p hp
    have hpe : p ∈ t.entries := (mem_entries_iff t p).mpr ⟨_, hb, hp⟩
    cases hc : t.m_key_equal k p.1 with
    | false => rfl
    | true => exact absurd ((hk _ _).mp hc).symm (h p hpe)

/-- Placing a pair with a fresh key, after the growth step, keeps a table well formed. -/
theorem well_formed_place (t : hash_table K V) (hwf : well_formed t) (k : K) (v : V)
    (habs : ∀ e ∈ t.entries, e.1 ≠ k) :
    well_formed { t with m_size := t.m_size + 1,
                         m_buckets := place t.m_hasher (grown t) (k, v) } := by
  obtain ⟨hlen, hpl, hnd⟩ := hwf
  have hg := length_grown_pos t hlen
  refine ⟨by simpa [place] using hg, placed_modify_cons _ _ _ (placed_grown t hpl), ?_⟩
  have hperm : (place t.m_hasher (grown t) (k, v)).flatten.Perm ((k, v) :: t.m_buckets.flatten) :=
    (flatten_modify_cons_perm (k, v) (grown t) _ (Nat.mod_lt _ hg)).trans
      (List.Perm.cons _ (flatten_grown_perm t))
  simp only [hash_table.entries] at hnd habs ⊢
  rw [(hperm.map Prod.fst).nodup_iff, List.map_cons, List.nodup_cons]
  refine ⟨?_, hnd⟩
  intro hmem
  obtain ⟨e, he, hek⟩ := List.mem_map.mp hmem
  exact habs e he hek

theorem mem_entries_place (t : hash_table K V) (hlen : 0 < t.m_buckets.length) (k : K) (v : V)
    (e : K × V) :
    e ∈ (place t.m_hasher (grown t) (k, v)).flatten ↔ e = (k, v) ∨ e ∈ t.m_buckets.flatten := by
  have hg := length_grown_pos t hlen
  have hperm : (place t.m_hasher (grown t) (k, v)).flatten.Perm ((k, v) :: t.m_buckets.flatten) :=
    (flatten_modify_cons_perm (k, v) (grown t) _ (Nat.mod_lt _ hg)).trans
      (List.Perm.cons _ (flatten_grown_perm t))
  rw [hperm.mem_iff, List.mem_cons]

/-- For `n ≥ 1` the array built by `rehash(n)` is well formed when the old one was. -/
theorem well_formed_rehash (t : hash_table K V) (hnd : (t.entries.map Prod.fst).Nodup) (n : Nat)
    (hn : 0 < n) :
    well_formed { t with m_buckets :=
      t.m_buckets.flatten.foldl (place t.m_hasher) (List.replicate n []) } := by
  refine ⟨by simpa [length_foldl_place] using hn,
    placed_foldl_place _ _ _ (placed_replicate _ _), ?_⟩
  have h := flatten_foldl_place_perm t.m_hasher t.m_buckets.flatten
    (List.replicate n []) (by simpa using hn)
  rw [flatten_replicate_nil, List.append_nil] at h
  simp only [hash_table.entries] at hnd ⊢
  rw [(h.map Prod.fst).nodup_iff]
  exact hnd

theorem well_formed_clear (t : hash_table K V) : well_formed t.clear := by
  have h : t.clear.m_buckets = [[]] := by
    simp only [hash_table.clear, resize]
    cases hb : t.m_buckets with
    | nil => rfl
    | cons x xs => simp
  refine ⟨by rw [h]; simp, ?_, ?_⟩
  · intro b hb e he
    rw [h] at hb he
    simp only [List.length_singleton, Nat.lt_one_iff] at hb
    subst hb
    simp [bucket_at] at he
  · simp [hash_table.entries, h]

end preservation

section erasing

variable {K V : Type}

theorem next_isSome (bs : Buckets K V) (bi be b i : Nat) (hi : i < (bucket_at bs b).length)
    (hb : bi < bs.length) : ∃ tmp, iterator.next bs ⟨bi, be, some (b, i)⟩ = some tmp := by
  simp only [iterator.next, hi, hb, and_self, if_true]
  split
  · split <;> exact ⟨_, rfl⟩
  · exact ⟨_, rfl⟩

/-- A call of `erase(position)` that is defined removes one node of one bucket and changes
nothing else; `m_size` in particular keeps its value. -/
theorem erase_at_eq (t t' : hash_table K V) (position it : iterator)
    (h : t.erase_at position = some (t', it)) :
    ∃ b i, position.m_pair_iterator = some (b, i) ∧ b = position.m_bucket_iterator ∧
      t' = { t with m_buckets := t.m_buckets.modify (fun bucket => bucket.eraseIdx i) b } := by
  unfold hash_table.erase_at at h
  cases hn : position.next t.m_buckets with
  | none => rw [hn] at h; exact Option.noConfusion h
  | some tmp =>
    rw [hn] at h
    cases hp : position.m_pair_iterator with
    | none => rw [hp] at h; exact Option.noConfusion h
    | some q =>
      obtain ⟨b, i⟩ := q
      rw [hp] at h
      simp only [] at h
      by_cases hbb : b = position.m_bucket_iterator
      · rw [if_pos hbb] at h
        simp only [Option.some.injEq, Prod.mk.injEq] at h
        exact ⟨b, i, rfl, hbb, by rw [← h.1, hbb]⟩
      · rw [if_neg hbb] at h; exact Option.noConfusion h

/-- Closed form of `erase(key)` when `find` reaches the end of the bucket: nothing changes. -/
theorem erase_absent (t : hash_table K V) (k : K) (hlen : 0 < t.m_buckets.length)
    (h : find_pair t.m_key_equal k
        (bucket_at t.m_buckets (t.m_hasher k % t.m_buckets.length)) 0
      = (bucket_at t.m_buckets (t.m_hasher k % t.m_buckets.length)).length) :
    t.erase k = some t := by
  have hb : t.m_hasher k % t.m_buckets.length < t.m_buckets.length := Nat.mod_lt _ hlen
  simp only [hash_table.erase, find_eq t k hlen, ne_end_iff t _ _ hb]
  simp [h]

/-- Closed form of `erase(key)` when `find` stops at a pair: that node is unlinked from its
bucket; `m_size` keeps its value. -/
theorem erase_present (t : hash_table K V) (k : K) (hlen : 0 < t.m_buckets.length)
    (h : find_pair t.m_key_equal k
        (bucket_at t.m_buckets (t.m_hasher k % t.m_buckets.length)) 0
      ≠ (bucket_at t.m_buckets (t.m_hasher k % t.m_buckets.length)).length) :
    t.erase k = some { t with m_buckets := (t.m_buckets.modify
        (fun bucket => bucket.eraseIdx
          (find_pair t.m_key_equal k
            (bucket_at t.m_buckets (t.m_hasher k % t.m_buckets.length)) 0))
        (t.m_hasher k % t.m_buckets.length)) } := by
  have hb : t.m_hasher k % t.m_buckets.length < t.m_buckets.length := Nat.mod_lt _ hlen
  have hi : find_pair t.m_key_equal k
        (bucket_at t.m_buckets (t.m_hasher k % t.m_buckets.length)) 0
      < (bucket_at t.m_buckets (t.m_hasher k % t.m_buckets.length)).length :=
    lt_of_le_of_ne (find_pair_le _ _ _) h
  obtain ⟨tmp, htmp⟩ := next_isSome t.m_buckets (t.m_hasher k % t.m_buckets.length)
    t.m_buckets.length _ _ hi hb
  simp only [hash_table.erase, find_eq t k hlen, ne_end_iff t _ _ hb]
  simp only [h, ne_eq, not_false_eq_true, decide_True, if_true, hash_table.erase_at, htmp]

end erasing

section reachability

variable {K V : Type}

theorem eq_eq_not_ne (bs : Buckets K V) (a b : iterator) : a.eq bs b = !(a.ne bs b) := by
  simp [iterator.ne]

/-- On a well-formed table `find(k)` returns an iterator to the pair stored under `k`, which
differs from `end()`, or an iterator equal to `end()` when no pair has key `k`. -/
theorem find_spec (t : hash_table K V) (hk : key_equal_is_eq t.m_key_equal)
    (hwf : well_formed t) (k : K) :
    (∀ e ∈ t.entries, e.1 = k → ∃ it, t.find k = some it ∧
        it.deref t.m_buckets = some e ∧ it.eq t.m_buckets t.end_ = false) ∧
    ((∀ e ∈ t.entries, e.1 ≠ k) → ∃ it, t.find k = some it ∧
        it.eq t.m_buckets t.end_ = true) := by
  have hlen := hwf.1
  have hb : t.m_hasher k % t.m_buckets.length < t.m_buckets.length := Nat.mod_lt _ hlen
  constructor
  · intro e he hek
    have h := (lookup_eq_some_iff t hk hwf k e).mpr ⟨he, hek⟩
    refine ⟨_, find_eq t k hlen, ?_⟩
    simp only [lookup, find_eq t k hlen] at h
    rw [eq_eq_not_ne]
    split at h
    · rename_i hne
      simp only [Option.some.injEq] at h
      exact ⟨h, by rw [hne]; rfl⟩
    · simp at h
  · intro habs
    refine ⟨_, find_eq t k hlen, ?_⟩
    have h := (find_pair_eq_length_iff_absent t hk hwf k).mpr habs
    rw [eq_eq_not_ne, ne_end_iff t _ _ hb]
    simp [h]

theorem well_formed_construct (hash : K → Nat) (keq : K → K → Bool) :
    well_formed (hash_table.construct 1 hash keq : hash_table K V) := by
  refine ⟨by simp [hash_table.construct], ?_, ?_⟩
  · exact placed_replicate hash 1
  · simp [hash_table.entries, hash_table.construct]

/-- One call on a well-formed table: a call without iterator argument is defined, and every
defined call leaves a well-formed table with the same hash function and key predicate. -/
theorem apply_sound (t : hash_table K V) (c : call K V) (hk : key_equal_is_eq t.m_key_equal)
    (hwf : well_formed t) (hc : c.positive) :
    (c.by_key → ∃ t', c.apply t = some t') ∧
    ∀ t', c.apply t = some t' →
      t'.m_key_equal = t.m_key_equal ∧ t'.m_hasher = t.m_hasher ∧ well_formed t' := by
  have hlen := hwf.1
  cases c with
  | insert k v =>
    by_cases h : find_pair t.m_key_equal k
        (bucket_at t.m_buckets (t.m_hasher k % t.m_buckets.length)) 0
        = (bucket_at t.m_buckets (t.m_hasher k % t.m_buckets.length)).length
    · simp only [call.apply, insert_absent t k v hlen h, Option.map_some', Option.some.injEq]
      refine ⟨fun _ => ⟨_, rfl⟩, ?_⟩
      rintro t' rfl
      exact ⟨rfl, rfl, well_formed_place t hwf k v
        ((find_pair_eq_length_iff_absent t hk hwf k).mp h)⟩
    · simp only [call.apply, insert_present t k v hlen h, Option.map_some', Option.some.injEq]
      refine ⟨fun _ => ⟨_, rfl⟩, ?_⟩
      rintro t' rfl
      refine ⟨rfl, rfl, ?_⟩
      rw [update_eq_map t hk hwf k v]
      apply well_formed_update t hwf
      intro p; split <;> rfl
  | erase k =>
    by_cases h : find_pair t.m_key_equal k
        (bucket_at t.m_buckets (t.m_hasher k % t.m_buckets.length)) 0
        = (bucket_at t.m_buckets (t.m_hasher k % t.m_buckets.length)).length
    · simp only [call.apply, erase_absent t k hlen h, Option.some.injEq]
      refine ⟨fun _ => ⟨_, rfl⟩, ?_⟩
      rintro t' rfl
      exact ⟨rfl, rfl, hwf⟩
    · simp only [call.apply, erase_present t k hlen h, Option.some.injEq]
      refine ⟨fun _ => ⟨_, rfl⟩, ?_⟩
      rintro t' rfl
      exact ⟨rfl, rfl, well_formed_modify_sublist t hwf _
        (fun l => List.eraseIdx_sublist l _) _ t.m_size⟩
  | erase_at position =>
    refine ⟨fun h => absurd h (by simp [call.by_key]), ?_⟩
    intro t' h
    simp only [call.apply, Option.map_eq_some', Prod.exists, exists_and_right, exists_eq_right]
      at h
    obtain ⟨it, hit⟩ := h
    obtain ⟨b, i, _, _, rfl⟩ := erase_at_eq t t' position it hit
    exact ⟨rfl, rfl, well_formed_modify_sublist t hwf _
      (fun l => List.eraseIdx_sublist l _) _ t.m_size⟩
  | clear =>
    simp only [call.apply, Option.some.injEq]
    refine ⟨fun _ => ⟨_, rfl⟩, ?_⟩
    rintro t' rfl
    exact ⟨rfl, rfl, well_formed_clear t⟩
  | rehash n =>
    have hn : 0 < n := hc
    simp only [call.apply, rehash_eq t n hn, Option.some.injEq]
    refine ⟨fun _ => ⟨_, rfl⟩, ?_⟩
    rintro t' rfl
    exact ⟨rfl, rfl, well_formed_rehash t hwf.2.2 n hn⟩

/-- A sequence of calls on a well-formed table: it is defined when no call takes an iterator,
and wherever it is defined the final table is well formed. -/
theorem run_sound (calls : List (call K V)) :
    ∀ t : hash_table K V, key_equal_is_eq t.m_key_equal → well_formed t →
      (∀ c ∈ calls, c.positive) →
      ((∀ c ∈ calls, c.by_key) → ∃ t', run t calls = some t') ∧
      ∀ t', run t calls = some t' →
        t'.m_key_equal = t.m_key_equal ∧ t'.m_hasher = t.m_hasher ∧ well_formed t' := by
  induction calls with
  | nil =>
    intro t _ hwf _
    refine ⟨fun _ => ⟨t, rfl⟩, ?_⟩
    intro t' h
    simp only [run, Option.some.injEq] at h
    subst h
    exact ⟨rfl, rfl, hwf⟩
  | cons c rest ih =>
    intro t hk hwf hpos
    obtain ⟨h1, h2⟩ := apply_sound t c hk hwf (hpos c (List.mem_cons_self _ _))
    have hrest : ∀ c' ∈ rest, c'.positive := fun c' hc' => hpos c' (List.mem_cons_of_mem _ hc')
    constructor
    · intro hkey
      obtain ⟨t1, ht1⟩ := h1 (hkey c (List.mem_cons_self _ _))
      obtain ⟨he, _, hw⟩ := h2 t1 ht1
      obtain ⟨t2, ht2⟩ := (ih t1 (by rw [he]; exact hk) hw hrest).1
        (fun c' hc' => hkey c' (List.mem_cons_of_mem _ hc'))
      exact ⟨t2, by simp only [run, ht1, ht2]⟩
    · intro t' h
      simp only [run] at h
      cases ht1 : c.apply t with
      | none => rw [ht1] at h; exact Option.noConfusion h
      | some t1 =>
        rw [ht1] at h
        obtain ⟨he, hh, hw⟩ := h2 t1 ht1
        obtain ⟨he2, hh2, hw2⟩ := (ih t1 (by rw [he]; exact hk) hw hrest).2 t' h
        exact ⟨he2.trans he, hh2.trans hh, hw2⟩

end reachability

section claims

variable {K V : Type}

theorem find_pair_map (keq : K → K → Bool) (k : K) (g : K × V → K × V)
    (hg : ∀ p, (g p).1 = p.1) :
    ∀ (l : Bucket K V) (i : Nat), find_pair keq k (l.map g) i = find_pair keq k l i := by
  intro l
  induction l with
  | nil => intro i; rfl
  | cons p l ih =>
    intro i
    simp only [List.map_cons, find_pair, hg p, ih]

theorem insert_all_eq_run (l : List (K × V)) :
    ∀ t : hash_table K V,
      t.insert_all l = run t (l.map (fun p => call.insert p.1 p.2)) := by
  induction l with
  | nil => intro t; rfl
  | cons p l ih =>
    intro t
    simp only [hash_table.insert_all, List.map_cons, run, call.apply]
    cases h : t.insert p with
    | none => simp [h]
    | some r =>
      obtain ⟨t', it⟩ := r
      simp [h, ih t']

/-- C1. For every table reached from a default-constructed table (one bucket) by calls of
insert, erase, clear and rehash(n) with n ≥ 1, and every key k: if a pair with key k is stored
anywhere in the table, find(k) returns an iterator that refers to that pair and does not compare
equal to end(); otherwise find(k) compares equal to end().  A sequence of calls that takes no
iterator argument is always defined. -/
theorem find_on_reachable (hash : K → Nat) (keq : K → K → Bool) (hk : key_equal_is_eq keq)
    (calls : List (call K V)) (hpos : ∀ c ∈ calls, c.positive) :
    ((∀ c ∈ calls, c.by_key) → ∃ t, run (hash_table.construct 1 hash keq) calls = some t) ∧
    ∀ t, run (hash_table.construct 1 hash keq) calls = some t → ∀ k,
      (∀ e ∈ t.entries, e.1 = k → ∃ it, t.find k = some it ∧
          it.deref t.m_buckets = some e ∧ it.eq t.m_buckets t.end_ = false) ∧
      ((∀ e ∈ t.entries, e.1 ≠ k) → ∃ it, t.find k = some it ∧
          it.eq t.m_buckets t.end_ = true) := by
  obtain ⟨h1, h2⟩ := run_sound calls (hash_table.construct 1 hash keq) hk
    (well_formed_construct hash keq) hpos
  refine ⟨h1, ?_⟩
  intro t ht k
  obtain ⟨he, _, hw⟩ := h2 t ht
  exact find_spec t (by rw [he]; exact hk) hw k

/-- Insertion of a key that is absent from a well-formed table: the size grows by one, the
returned iterator is the one `find` returns afterwards and refers to the new pair, and every
other key is found as before. -/
theorem fresh_key_insertion (t : hash_table K V) (hk : key_equal_is_eq t.m_key_equal)
    (hwf : well_formed t) (k : K) (v : V) (habs : ∀ e ∈ t.entries, e.1 ≠ k) :
    ∃ t' it, t.insert (k, v) = some (t', it) ∧ t'.size = t.size + 1 ∧
      t'.find k = some it ∧ it.deref t'.m_buckets = some (k, v) ∧
      it.eq t'.m_buckets t'.end_ = false ∧
      (∀ k', k' ≠ k → lookup t' k' = lookup t k') ∧ well_formed t' := by
  have hlen := hwf.1
  have h := (find_pair_eq_length_iff_absent t hk hwf k).mpr habs
  have hwf' := well_formed_place t hwf k v habs
  refine ⟨_, _, insert_absent t k v hlen h, rfl, ?_, ?_, ?_, ?_, hwf'⟩
  · -- find on the new table stops at the first node of the bucket
    have hg := length_grown_pos t hlen
    have hlen' : 0 < (place t.m_hasher (grown t) (k, v)).length := by
      rw [length_place]; exact hg
    rw [find_eq _ k hlen']
    simp only [length_place]
    have hbk : bucket_at (place t.m_hasher (grown t) (k, v)) (t.m_hasher k % (grown t).length)
        = (k, v) :: bucket_at (grown t) (t.m_hasher k % (grown t).length) := by
      simp only [place]
      rw [bucket_at_modify _ _ _ _ (Nat.mod_lt _ hg)]
      simp
    rw [hbk]
    simp [find_pair, (hk k k).mpr rfl]
  · have hg := length_grown_pos t hlen
    simp only [iterator.deref]
    have hbk : bucket_at (place t.m_hasher (grown t) (k, v)) (t.m_hasher k % (grown t).length)
        = (k, v) :: bucket_at (grown t) (t.m_hasher k % (grown t).length) := by
      simp only [place]
      rw [bucket_at_modify _ _ _ _ (Nat.mod_lt _ hg)]
      simp
    rw [hbk]; simp
  · have hg := length_grown_pos t hlen
    have hbk : bucket_at (place t.m_hasher (grown t) (k, v)) (t.m_hasher k % (grown t).length)
        = (k, v) :: bucket_at (grown t) (t.m_hasher k % (grown t).length) := by
      simp only [place]
      rw [bucket_at_modify _ _ _ _ (Nat.mod_lt _ hg)]
      simp
    have hne := ne_end_iff
      ({ t with m_size := t.m_size + 1, m_buckets := place t.m_hasher (grown t) (k, v) })
      (t.m_hasher k % (grown t).length) 0
      (by simp only [length_place]; exact Nat.mod_lt _ hg)
    simp only [length_place] at hne
    rw [eq_eq_not_ne, hne, hbk]
    simp
  · intro k' hk'
    apply lookup_congr t
      { t with m_size := t.m_size + 1, m_buckets := place t.m_hasher (grown t) (k, v) }
      hk hk hwf hwf' k'
    intro e he
    simp only [hash_table.entries]
    rw [mem_entries_place t hlen k v e]
    constructor
    · rintro (rfl | h1)
      · exact absurd he (fun h => hk' h.symm)
      · exact h1
    · intro h1; exact Or.inr h1

/-- C2. On a well-formed table, insert(k, v) of a key that is not present makes size() one
greater, makes find(k) return the very iterator that insert returned, which refers to the pair
(k, v) and differs from end(), and leaves what find yields for every other key unchanged, also
when the insert rebuilds the bucket array; the table stays well formed. -/
theorem insert_fresh_key (t : hash_table K V) (hk : key_equal_is_eq t.m_key_equal)
    (hwf : well_formed t) (k : K) (v : V) (habs : ∀ e ∈ t.entries, e.1 ≠ k) :
    ∃ t' it, t.insert (k, v) = some (t', it) ∧ t'.size = t.size + 1 ∧
      t'.find k = some it ∧ it.deref t'.m_buckets = some (k, v) ∧
      it.eq t'.m_buckets t'.end_ = false ∧
      (∀ k', k' ≠ k → lookup t' k' = lookup t k') ∧ well_formed t' :=
  fresh_key_insertion t hk hwf k v habs

/-- C3. On a well-formed table that already contains the key k, insert(k, w) leaves size() and
buckets() unchanged, keeps every pair in its bucket and at its place, changes only the value of
the pair with key k, which becomes w, and returns an iterator that refers to that pair (the one
find(k) returns afterwards). -/
theorem insert_existing_key (t : hash_table K V) (hk : key_equal_is_eq t.m_key_equal)
    (hwf : well_formed t) (k : K) (w : V) (hpres : ∃ e ∈ t.entries, e.1 = k) :
    ∃ t' it, t.insert (k, w) = some (t', it) ∧ t'.size = t.size ∧ t'.buckets = t.buckets ∧
      t'.m_buckets
        = t.m_buckets.map (List.map (fun p => if t.m_key_equal k p.1 then (k, w) else p)) ∧
      t'.entries = t.entries.map (fun p => if t.m_key_equal k p.1 then (k, w) else p) ∧
      t'.find k = some it ∧ it.deref t'.m_buckets = some (k, w) ∧
      it.eq t'.m_buckets t'.end_ = false := by
  have hlen := hwf.1
  have hb : t.m_hasher k % t.m_buckets.length < t.m_buckets.length := Nat.mod_lt _ hlen
  have h : find_pair t.m_key_equal k
      (bucket_at t.m_buckets (t.m_hasher k % t.m_buckets.length)) 0
      ≠ (bucket_at t.m_buckets (t.m_hasher k % t.m_buckets.length)).length := by
    intro hc
    obtain ⟨e, he, hek⟩ := hpres
    exact (find_pair_eq_length_iff_absent t hk hwf k).mp hc e he hek
  have hg : ∀ p : K × V, (if t.m_key_equal k p.1 then (k, w) else p).1 = p.1 := by
    intro p
    by_cases hp : t.m_key_equal k p.1 = true
    · simp only [hp, if_true]; exact (hk _ _).mp hp
    · simp only [hp, if_false, Bool.false_eq_true]
  have hfun : (fun p : K × V => if t.m_key_equal k p.1 then (p.1, w) else p)
      = (fun p : K × V => if t.m_key_equal k p.1 then (k, w) else p) := by
    funext p
    by_cases hp : t.m_key_equal k p.1 = true
    · simp only [hp, if_true]; rw [(hk _ _).mp hp]
    · simp only [hp, if_false, Bool.false_eq_true]
  have hins := insert_present t k w hlen h
  rw [update_eq_map t hk hwf k w, hfun] at hins
  have hbk := bucket_at_map
    (List.map (fun p : K × V => if t.m_key_equal k p.1 then (k, w) else p)) t.m_buckets _ hb
  refine ⟨_, _, hins, rfl, by simp [hash_table.buckets], rfl, ?_, ?_, ?_, ?_⟩
  · simp only [hash_table.entries, List.map_flatten]
  · rw [find_eq _ k (by simpa using hlen)]
    simp only [List.length_map]
    rw [hbk, find_pair_map _ _ _ hg]
  · simp only [iterator.deref]
    rw [hbk, List.getElem?_map, getElem?_find_pair]
    cases hf : (bucket_at t.m_buckets (t.m_hasher k % t.m_buckets.length)).find?
        (fun p => t.m_key_equal k p.1) with
    | none =>
      rw [List.find?_eq_none] at hf
      exact absurd ((find_pair_eq_length_iff _ _ _).mpr
        (fun p hp => by simpa using hf p hp)) h
    | some e =>
      have h1 := List.find?_some hf
      simp only [Option.map_some', Option.some.injEq]
      simp only [] at h1
      simp [h1]
  · have hne := ne_end_iff
      ({ t with m_buckets :=
          (t.m_buckets.map (List.map (fun p => if t.m_key_equal k p.1 then (k, w) else p))) })
      (t.m_hasher k % t.m_buckets.length)
      (find_pair t.m_key_equal k
        (bucket_at t.m_buckets (t.m_hasher k % t.m_buckets.length)) 0)
      (by simpa using hb)
    simp only [List.length_map] at hne
    rw [eq_eq_not_ne, hne, hbk, List.length_map]
    simp [h]

/-- C4. Any finite sequence of insert calls, repeats allowed, on a default-constructed table
returns a table in which no two stored pairs, in the same or in different buckets, have equal
keys. -/
theorem insert_all_unique_keys (hash : K → Nat) (keq : K → K → Bool) (hk : key_equal_is_eq keq)
    (values : List (K × V)) :
    ∃ t, (hash_table.construct 1 hash keq).insert_all values = some t ∧
      (t.entries.map Prod.fst).Nodup := by
  obtain ⟨h1, h2⟩ := run_sound (values.map (fun p => call.insert p.1 p.2))
    (hash_table.construct 1 hash keq) hk (well_formed_construct hash keq)
    (by
      intro c hc
      obtain ⟨p, _, rfl⟩ := List.mem_map.mp hc
      exact True.intro)
  obtain ⟨t, ht⟩ := h1 (by
    intro c hc
    obtain ⟨p, _, rfl⟩ := List.mem_map.mp hc
    exact True.intro)
  refine ⟨t, by rw [insert_all_eq_run]; exact ht, (h2 t ht).2.2.2.2⟩

/-- C6. On a well-formed table: erase(k) of an absent key returns the table unchanged;
erase(k) of a present key leaves find(k) equal to end(), leaves what find yields for every other
key unchanged, removes the pair with key k from its bucket and keeps every other pair in its
bucket and in its relative place, and leaves buckets() unchanged. -/
theorem erase_key (t : hash_table K V) (hk : key_equal_is_eq t.m_key_equal)
    (hwf : well_formed t) (k : K) :
    ((∀ e ∈ t.entries, e.1 ≠ k) → t.erase k = some t) ∧
    ((∃ e ∈ t.entries, e.1 = k) → ∃ t', t.erase k = some t' ∧
      (∃ it, t'.find k = some it ∧ it.eq t'.m_buckets t'.end_ = true) ∧
      (∀ k', k' ≠ k → lookup t' k' = lookup t k') ∧
      t'.m_buckets = t.m_buckets.map (List.filter (fun p => !t.m_key_equal k p.1)) ∧
      t'.entries = t.entries.filter (fun p => !t.m_key_equal k p.1) ∧
      t'.buckets = t.buckets) := by
  have hlen := hwf.1
  constructor
  · intro habs
    exact erase_absent t k hlen ((find_pair_eq_length_iff_absent t hk hwf k).mpr habs)
  · intro hpres
    have h : find_pair t.m_key_equal k
        (bucket_at t.m_buckets (t.m_hasher k % t.m_buckets.length)) 0
        ≠ (bucket_at t.m_buckets (t.m_hasher k % t.m_buckets.length)).length := by
      intro hc
      obtain ⟨e, he, hek⟩ := hpres
      exact (find_pair_eq_length_iff_absent t hk hwf k).mp hc e he hek
    have hers := erase_present t k hlen h
    have hwf' := well_formed_modify_sublist t hwf
      (fun bucket => bucket.eraseIdx (find_pair t.m_key_equal k
        (bucket_at t.m_buckets (t.m_hasher k % t.m_buckets.length)) 0))
      (fun l => List.eraseIdx_sublist l _) (t.m_hasher k % t.m_buckets.length) t.m_size
    rw [erase_eq_map t hk hwf k] at hers hwf'
    obtain ⟨t', ht'⟩ : ∃ t' : hash_table K V, t' = { t with m_buckets :=
        (t.m_buckets.map (List.filter (fun p => !t.m_key_equal k p.1))) } := ⟨_, rfl⟩
    have hk' : key_equal_is_eq t'.m_key_equal := by rw [ht']; exact hk
    have hent : t'.entries = t.entries.filter (fun p => !t.m_key_equal k p.1) := by
      rw [ht']; simp only [hash_table.entries, List.filter_flatten]
    have hwf2 : well_formed t' := by rw [ht']; exact hwf'
    refine ⟨t', by rw [ht']; exact hers, ?_, ?_, by rw [ht'], hent,
      by rw [ht']; simp [hash_table.buckets]⟩
    · apply (find_spec t' hk' hwf2 k).2
      intro e he hek
      rw [hent, List.mem_filter] at he
      have h1 := he.2
      rw [← hek, (hk e.1 e.1).mpr rfl] at h1
      simp at h1
    · intro k' hne
      apply lookup_congr t t' hk hk' hwf hwf2 k'
      intro e he
      rw [hent, List.mem_filter]
      constructor
      · exact fun h1 => h1.1
      · intro h1
        refine ⟨h1, ?_⟩
        cases hc : t.m_key_equal k e.1 with
        | false => rfl
        | true => exact absurd (he.symm.trans ((hk _ _).mp hc).symm) hne

/-- C7. With at least one bucket `operator[]` never fails.  On a well-formed table:
`operator[](k)` of a present key returns the value stored for k and leaves the table unchanged;
`operator[](k)` of an absent key returns the default value and leaves the table that
insert(k, default value) produces, whose size() is one greater and in which find(k) is not
end(). -/
theorem subscript_spec [Inhabited V] (t : hash_table K V) (k : K)
    (hlen : 0 < t.m_buckets.length) :
    (∃ r, t.subscript k = some r) ∧
    (key_equal_is_eq t.m_key_equal → well_formed t →
      (∀ e ∈ t.entries, e.1 = k → t.subscript k = some (t, e.2)) ∧
      ((∀ e ∈ t.entries, e.1 ≠ k) → ∃ t' it, t.insert (k, default) = some (t', it) ∧
        t.subscript k = some (t', default) ∧ t'.size = t.size + 1 ∧
        t'.find k = some it ∧ it.eq t'.m_buckets t'.end_ = false)) := by
  have hb : t.m_hasher k % t.m_buckets.length < t.m_buckets.length := Nat.mod_lt _ hlen
  have hg := length_grown_pos t hlen
  have hbk : bucket_at (place t.m_hasher (grown t) (k, (default : V)))
      (t.m_hasher k % (grown t).length)
      = (k, default) :: bucket_at (grown t) (t.m_hasher k % (grown t).length) := by
    simp only [place]
    rw [bucket_at_modify _ _ _ _ (Nat.mod_lt _ hg)]
    simp
  have habs_form : find_pair t.m_key_equal k
        (bucket_at t.m_buckets (t.m_hasher k % t.m_buckets.length)) 0
        = (bucket_at t.m_buckets (t.m_hasher k % t.m_buckets.length)).length →
      t.subscript k = some
        ({ t with m_size := t.m_size + 1,
                  m_buckets := place t.m_hasher (grown t) (k, default) }, default) := by
    intro h
    simp only [hash_table.subscript, find_eq t k hlen, ne_end_iff t _ _ hb]
    simp only [h, ne_eq, not_true_eq_false, decide_False, Bool.false_eq_true, if_false]
    rw [insert_absent t k default hlen h]
    simp only [iterator.deref, hbk]
    simp
  have hpres_form : find_pair t.m_key_equal k
        (bucket_at t.m_buckets (t.m_hasher k % t.m_buckets.length)) 0
        ≠ (bucket_at t.m_buckets (t.m_hasher k % t.m_buckets.length)).length →
      ∃ p, (bucket_at t.m_buckets (t.m_hasher k % t.m_buckets.length)).find?
          (fun p => t.m_key_equal k p.1) = some p ∧ t.subscript k = some (t, p.2) := by
    intro h
    have hi := lt_of_le_of_ne (find_pair_le t.m_key_equal k
      (bucket_at t.m_buckets (t.m_hasher k % t.m_buckets.length))) h
    have hget := getElem?_find_pair t.m_key_equal k
      (bucket_at t.m_buckets (t.m_hasher k % t.m_buckets.length))
    rw [List.getElem?_eq_getElem hi] at hget
    refine ⟨_, hget.symm, ?_⟩
    simp only [hash_table.subscript, find_eq t k hlen, ne_end_iff t _ _ hb]
    simp only [h, ne_eq, not_false_eq_true, decide_True, if_true, iterator.deref,
      List.getElem?_eq_getElem hi]
  constructor
  · by_cases h : find_pair t.m_key_equal k
        (bucket_at t.m_buckets (t.m_hasher k % t.m_buckets.length)) 0
        = (bucket_at t.m_buckets (t.m_hasher k % t.m_buckets.length)).length
    · exact ⟨_, habs_form h⟩
    · obtain ⟨p, _, hp⟩ := hpres_form h
      exact ⟨_, hp⟩
  · intro hk hwf
    constructor
    · intro e he hek
      have h : find_pair t.m_key_equal k
          (bucket_at t.m_buckets (t.m_hasher k % t.m_buckets.length)) 0
          ≠ (bucket_at t.m_buckets (t.m_hasher k % t.m_buckets.length)).length :=
        fun hc => (find_pair_eq_length_iff_absent t hk hwf k).mp hc e he hek
      obtain ⟨p, hfp, hp⟩ := hpres_form h
      have h1 := (lookup_eq_some_iff t hk hwf k e).mpr ⟨he, hek⟩
      rw [lookup_eq t k hlen, hfp] at h1
      simp only [Option.some.injEq] at h1
      rw [hp, h1]
    · intro habs
      obtain ⟨t', it, h1, h2, h3, _, h5, _, _⟩ := fresh_key_insertion t hk hwf k default habs
      have h := (find_pair_eq_length_iff_absent t hk hwf k).mpr habs
      have h6 := habs_form h
      rw [insert_absent t k default hlen h] at h1
      simp only [Option.some.injEq, Prod.mk.injEq] at h1
      obtain ⟨rfl, rfl⟩ := h1
      exact ⟨_, _, insert_absent t k default hlen h, h6, h2, h3, h5⟩

theorem clear_buckets (t : hash_table K V) : t.clear.m_buckets = [[]] := by
  simp only [hash_table.clear, resize]
  cases hb : t.m_buckets with
  | nil => rfl
  | cons x xs => simp

/-- One call on a table with at least one bucket: a call without iterator argument is defined,
and every defined call leaves at least one bucket. -/
theorem apply_buckets_pos (t : hash_table K V) (c : call K V) (hlen : 0 < t.m_buckets.length)
    (hc : c.positive) :
    (c.by_key → ∃ t', c.apply t = some t') ∧
    ∀ t', c.apply t = some t' → 0 < t'.m_buckets.length := by
  cases c with
  | insert k v =>
    by_cases h : find_pair t.m_key_equal k
        (bucket_at t.m_buckets (t.m_hasher k % t.m_buckets.length)) 0
        = (bucket_at t.m_buckets (t.m_hasher k % t.m_buckets.length)).length
    · simp only [call.apply, insert_absent t k v hlen h, Option.map_some', Option.some.injEq]
      refine ⟨fun _ => ⟨_, rfl⟩, ?_⟩
      rintro t' rfl
      simp only [length_place]
      exact length_grown_pos t hlen
    · simp only [call.apply, insert_present t k v hlen h, Option.map_some', Option.some.injEq]
      refine ⟨fun _ => ⟨_, rfl⟩, ?_⟩
      rintro t' rfl
      simpa using hlen
  | erase k =>
    by_cases h : find_pair t.m_key_equal k
        (bucket_at t.m_buckets (t.m_hasher k % t.m_buckets.length)) 0
        = (bucket_at t.m_buckets (t.m_hasher k % t.m_buckets.length)).length
    · simp only [call.apply, erase_absent t k hlen h, Option.some.injEq]
      refine ⟨fun _ => ⟨_, rfl⟩, ?_⟩
      rintro t' rfl
      exact hlen
    · simp only [call.apply, erase_present t k hlen h, Option.some.injEq]
      refine ⟨fun _ => ⟨_, rfl⟩, ?_⟩
      rintro t' rfl
      simpa using hlen
  | erase_at position =>
    refine ⟨fun h => absurd h (by simp [call.by_key]), ?_⟩
    intro t' h
    simp only [call.apply, Option.map_eq_some', Prod.exists, exists_and_right, exists_eq_right]
      at h
    obtain ⟨it, hit⟩ := h
    obtain ⟨b, i, _, _, rfl⟩ := erase_at_eq t t' position it hit
    simpa using hlen
  | clear =>
    simp only [call.apply, Option.some.injEq]
    refine ⟨fun _ => ⟨_, rfl⟩, ?_⟩
    rintro t' rfl
    rw [clear_buckets]; simp
  | rehash n =>
    have hn : 0 < n := hc
    simp only [call.apply, rehash_eq t n hn, Option.some.injEq]
    refine ⟨fun _ => ⟨_, rfl⟩, ?_⟩
    rintro t' rfl
    simpa [length_foldl_place] using hn

/-- A sequence of calls on a table with at least one bucket: it is defined when no call takes
an iterator, and after every defined prefix the table has at least one bucket. -/
theorem run_buckets_pos (calls : List (call K V)) :
    ∀ t : hash_table K V, 0 < t.m_buckets.length → (∀ c ∈ calls, c.positive) →
      ((∀ c ∈ calls, c.by_key) → ∃ t', run t calls = some t') ∧
      ∀ n t', run t (calls.take n) = some t' → 0 < t'.m_buckets.length := by
  induction calls with
  | nil =>
    intro t hlen _
    refine ⟨fun _ => ⟨t, rfl⟩, ?_⟩
    intro n t' h
    simp only [List.take_nil, run, Option.some.injEq] at h
    subst h; exact hlen
  | cons c rest ih =>
    intro t hlen hpos
    obtain ⟨h1, h2⟩ := apply_buckets_pos t c hlen (hpos c (List.mem_cons_self _ _))
    have hrest : ∀ c' ∈ rest, c'.positive := fun c' hc' => hpos c' (List.mem_cons_of_mem _ hc')
    constructor
    · intro hkey
      obtain ⟨t1, ht1⟩ := h1 (hkey c (List.mem_cons_self _ _))
      obtain ⟨t2, ht2⟩ := (ih t1 (h2 t1 ht1) hrest).1
        (fun c' hc' => hkey c' (List.mem_cons_of_mem _ hc'))
      exact ⟨t2, by simp only [run, ht1, ht2]⟩
    · intro n t' h
      cases n with
      | zero =>
        simp only [List.take_zero, run, Option.some.injEq] at h
        subst h; exact hlen
      | succ n =>
        simp only [List.take_succ_cons, run] at h
        cases ht1 : c.apply t with
        | none => rw [ht1] at h; exact Option.noConfusion h
        | some t1 =>
          rw [ht1] at h
          exact (ih t1 (h2 t1 ht1) hrest).2 n t' h

theorem insert_all_buckets_pos (values : List (K × V)) (t : hash_table K V)
    (hlen : 0 < t.m_buckets.length) :
    ∃ t', t.insert_all values = some t' ∧ 0 < t'.m_buckets.length := by
  have hpos : ∀ c ∈ values.map (fun p => call.insert p.1 p.2), c.positive := by
    intro c hc
    obtain ⟨p, _, rfl⟩ := List.mem_map.mp hc
    exact True.intro
  have hkey : ∀ c ∈ values.map (fun p => call.insert p.1 p.2), c.by_key := by
    intro c hc
    obtain ⟨p, _, rfl⟩ := List.mem_map.mp hc
    exact True.intro
  obtain ⟨h1, h2⟩ := run_buckets_pos _ t hlen hpos
  obtain ⟨t', ht'⟩ := h1 hkey
  refine ⟨t', by rw [insert_all_eq_run]; exact ht', ?_⟩
  apply h2 (values.map (fun p => call.insert p.1 p.2)).length t'
  rw [List.take_length]; exact ht'

/-- The range constructor with one requested bucket returns a table with at least one bucket. -/
theorem from_range_buckets_pos (range : List (K × V)) (hash : K → Nat) (keq : K → K → Bool) :
    ∃ t, hash_table.from_range range 1 hash keq = some t ∧ 0 < t.m_buckets.length :=
  insert_all_buckets_pos range _ (by simp [hash_table.construct])

/-- The initializer-list constructor with one requested bucket, on a list of at least three
pairs, returns a table with at least one bucket. -/
theorem from_initializer_list_buckets_pos (il : List (K × V)) (hil : 3 ≤ il.length)
    (hash : K → Nat) (keq : K → K → Bool) :
    ∃ t, hash_table.from_initializer_list il 1 hash keq = some t ∧ 0 < t.m_buckets.length := by
  have hfloor : 0 < ⌊((il.length : Nat) : ℚ) / DEFAULT_MAX_LOAD_FACTOR⌋₊ := by
    rw [Nat.floor_pos, DEFAULT_MAX_LOAD_FACTOR, le_div_iff₀ (by norm_num)]
    have : ((3 : Nat) : ℚ) ≤ ((il.length : Nat) : ℚ) := by exact_mod_cast hil
    simpa using this
  simp only [hash_table.from_initializer_list]
  have hc : (hash_table.construct 1 hash keq : hash_table K V).m_max_load_factor
      = DEFAULT_MAX_LOAD_FACTOR := rfl
  rw [hc, rehash_eq _ _ hfloor]
  simp only []
  exact insert_all_buckets_pos il _ (by simpa [length_foldl_place] using hfloor)

/-- C9 (amended). Every table made by the default constructor, by the range constructor, or by
the initializer-list constructor from a list of at least three pairs (each with the default
request of one bucket) has at least one bucket, and keeps at least one bucket after each step
of any sequence of insert, erase, clear and rehash(n) calls with n ≥ 1; such a sequence is
defined when it passes no iterator.  The two list constructors return on these inputs.
rehash(0) is not rejected: on a table that stores no pair it returns and leaves zero buckets. -/
theorem buckets_pos_on_reachable (hash : K → Nat) (keq : K → K → Bool) (t0 : hash_table K V)
    (h0 : t0 = hash_table.construct 1 hash keq ∨
      (∃ range, hash_table.from_range range 1 hash keq = some t0) ∨
      (∃ il, 3 ≤ il.length ∧ hash_table.from_initializer_list il 1 hash keq = some t0))
    (calls : List (call K V)) (hpos : ∀ c ∈ calls, c.positive) :
    (((∀ c ∈ calls, c.by_key) → ∃ t, run t0 calls = some t) ∧
      ∀ n t, run t0 (calls.take n) = some t → 1 ≤ t.buckets) ∧
    (∀ range : List (K × V), ∃ t, hash_table.from_range range 1 hash keq = some t) ∧
    (∀ il : List (K × V), 3 ≤ il.length →
      ∃ t, hash_table.from_initializer_list il 1 hash keq = some t) ∧
    (∀ t : hash_table K V, t.entries = [] → ∃ t', t.rehash 0 = some t' ∧ t'.buckets = 0) := by
  have hlen : 0 < t0.m_buckets.length := by
    rcases h0 with rfl | ⟨range, hr⟩ | ⟨il, hil, hi⟩
    · simp [hash_table.construct]
    · obtain ⟨t, ht, hl⟩ := from_range_buckets_pos range hash keq
      rw [hr] at ht
      simp only [Option.some.injEq] at ht
      subst ht; exact hl
    · obtain ⟨t, ht, hl⟩ := from_initializer_list_buckets_pos il hil hash keq
      rw [hi] at ht
      simp only [Option.some.injEq] at ht
      subst ht; exact hl
  refine ⟨run_buckets_pos calls t0 hlen hpos, ?_, ?_, ?_⟩
  · intro range
    obtain ⟨t, ht, _⟩ := from_range_buckets_pos range hash keq
    exact ⟨t, ht⟩
  · intro il hil
    obtain ⟨t, ht, _⟩ := from_initializer_list_buckets_pos il hil hash keq
    exact ⟨t, ht⟩
  · intro t ht
    exact ⟨_, rehash_of_flatten_nil t 0 ht, by simp [hash_table.buckets]⟩

/-- C10 (amended). On a table with b ≥ 1 buckets, size s and max load factor L, inserting a key
that is not present is defined and grows the bucket array by exactly one bucket, to b + 1, if and
only if (s + 2) / b > L, where s + 2 is one more than the size after the increment
(`rehash_needed` adds one to the `m_size` that `insert` has already incremented); otherwise the
bucket count stays b. -/
theorem insert_growth (t : hash_table K V) (k : K) (v : V) (hlen : 1 ≤ t.buckets)
    (habs : ∀ e ∈ t.entries, t.m_key_equal k e.1 = false) :
    ∃ t' it, t.insert (k, v) = some (t', it) ∧
      (t'.buckets = t.buckets + 1 ↔
        ((t.size : ℚ) + 2) / (t.buckets : ℚ) > t.m_max_load_factor) ∧
      (¬ ((t.size : ℚ) + 2) / (t.buckets : ℚ) > t.m_max_load_factor →
        t'.buckets = t.buckets) := by
  have hl : 0 < t.m_buckets.length := hlen
  have hb : t.m_hasher k % t.m_buckets.length < t.m_buckets.length := Nat.mod_lt _ hl
  have h : find_pair t.m_key_equal k
      (bucket_at t.m_buckets (t.m_hasher k % t.m_buckets.length)) 0
      = (bucket_at t.m_buckets (t.m_hasher k % t.m_buckets.length)).length := by
    rw [find_pair_eq_length_iff]
    intro p hp
    exact habs p ((mem_entries_iff t p).mpr ⟨_, hb, hp⟩)
  refine ⟨_, _, insert_absent t k v hl h, ?_⟩
  have hneeded : hash_table.rehash_needed { t with m_size := t.m_size + 1 } = true ↔
      ((t.size : ℚ) + 2) / (t.buckets : ℚ) > t.m_max_load_factor := by
    simp only [hash_table.rehash_needed, hash_table.size, hash_table.buckets,
      decide_eq_true_eq]
    have hc : ((t.m_size + 1 + 1 : Nat) : ℚ) = (t.m_size : ℚ) + 2 := by push_cast; ring
    rw [hc]
  simp only [hash_table.buckets] at hneeded ⊢
  simp only [length_place, length_grown]
  rw [← hneeded]
  by_cases hr : hash_table.rehash_needed { t with m_size := t.m_size + 1 } = true
  · simp [hr]
  · simp [hr]

/-- C5 (failing input). After `insert(1, 'A')` and `erase(1)` on a default-constructed table no
pair is stored, yet `size()` is 1 and `empty()` is false: `erase` never decrements `m_size`.
The same holds for `erase(position)` with the iterator of the pair. -/
theorem erase_keeps_size :
    (run default_table [call.insert 1 'A']).map
        (fun t => (t.size, t.empty, t.entries)) = some (1, false, [(1, 'A')]) ∧
    (run default_table [call.insert 1 'A', call.erase 1]).map
        (fun t => (t.size, t.empty, t.entries)) = some (1, false, []) ∧
    (run default_table [call.insert 1 'A', call.erase_at (iterator.mk 0 1 (some (0, 0)))]).map
        (fun t => (t.size, t.empty, t.entries)) = some (1, false, []) :=
  ⟨by decide!, by decide!, by decide!⟩

/-- C8 (failing input). The initializer-list constructor on the one-pair list `{{1, 'A'}}`
pre-sizes with `rehash(1 / 3.0)`, that is `rehash(0)`, and the following `insert` computes
`hash % 0`: the construction is undefined.  The same holds for two pairs; the empty list leaves
a table with zero buckets.  The four-pair list of the test is built as the test expects. -/
theorem initializer_list_short :
    (hash_table.from_initializer_list [(1, 'A')] 1 std_hash std_equal_to).isSome = false ∧
    (hash_table.from_initializer_list [(1, 'A'), (2, 'B')] 1 std_hash std_equal_to).isSome
      = false ∧
    (hash_table.from_initializer_list ([] : List (Nat × Char)) 1 std_hash std_equal_to).map
      hash_table.buckets = some 0 ∧
    (hash_table.from_initializer_list [(1, 'A'), (2, 'B'), (3, 'A'), (4, 'G')] 1 std_hash
        std_equal_to).map (fun t => (t.size, t.m_buckets))
      = some (list_table.size, list_table.m_buckets) ∧
    (list_table.subscript 1).map Prod.snd = some 'A' ∧
    (list_table.subscript 2).map Prod.snd = some 'B' ∧
    (list_table.subscript 3).map Prod.snd = some 'A' ∧
    (list_table.subscript 4).map Prod.snd = some 'G' := by
  decide!

/-- C9 (counterexample). `rehash(0)` on a default-constructed table is not rejected: it returns
and leaves a table with zero buckets. -/
theorem rehash_zero_not_rejected :
    (run default_table [call.rehash 0]).map hash_table.buckets = some 0 := by
  decide!

/-- C10 (counterexample). With b = 1 bucket, size s = 2 and L = 3 the ratio (s + 1) / b = 3 does
not exceed L, yet inserting the absent key 3 grows the bucket array to b + 1 = 2 buckets. -/
theorem insert_grows_at_ratio_three :
    (run default_table [call.insert 1 'A', call.insert 2 'B']).map
        (fun t => (t.size, t.buckets, t.entries,
          decide (((t.size : ℚ) + 1) / (t.buckets : ℚ) > t.m_max_load_factor)))
      = some (2, 1, [(2, 'B'), (1, 'A')], false) ∧
    (run default_table [call.insert 1 'A', call.insert 2 'B', call.insert 3 'C']).map
        (fun t => (t.size, t.buckets)) = some (3, 2) := by
  decide!

theorem std_equal_to_is_eq : key_equal_is_eq std_equal_to := by
  intro a b
  simp [std_equal_to]

/-- Instance of C1 on `sample_calls`: the sequence is defined, and `find` is right on the table
it returns. -/
theorem find_on_reachable_witness :
    key_equal_is_eq std_equal_to ∧ (∀ c ∈ sample_calls, c.positive) ∧
    (∀ c ∈ sample_calls, c.by_key) ∧
    (∃ t, run (hash_table.construct 1 std_hash std_equal_to) sample_calls = some t) ∧
    ∀ t, run (hash_table.construct 1 std_hash std_equal_to) sample_calls = some t → ∀ k,
      (∀ e ∈ t.entries, e.1 = k → ∃ it, t.find k = some it ∧
          it.deref t.m_buckets = some e ∧ it.eq t.m_buckets t.end_ = false) ∧
      ((∀ e ∈ t.entries, e.1 ≠ k) → ∃ it, t.find k = some it ∧
          it.eq t.m_buckets t.end_ = true) :=
  ⟨std_equal_to_is_eq, by decide, by decide,
    (find_on_reachable std_hash std_equal_to std_equal_to_is_eq sample_calls (by decide)).1
      (by decide),
    (find_on_reachable std_hash std_equal_to std_equal_to_is_eq sample_calls (by decide)).2⟩

/-- Instance of C2: `insert(6, 'Y')` on `five_table`, an insert that rebuilds the array. -/
theorem insert_fresh_key_witness :
    key_equal_is_eq five_table.m_key_equal ∧ well_formed five_table ∧
    (∀ e ∈ five_table.entries, e.1 ≠ 6) ∧
    hash_table.rehash_needed { five_table with m_size := five_table.m_size + 1 } = true ∧
    ∃ t' it, five_table.insert (6, 'Y') = some (t', it) ∧ t'.size = five_table.size + 1 ∧
      t'.find 6 = some it ∧ it.deref t'.m_buckets = some (6, 'Y') ∧
      it.eq t'.m_buckets t'.end_ = false ∧
      (∀ k', k' ≠ 6 → lookup t' k' = lookup five_table k') ∧ well_formed t' :=
  ⟨std_equal_to_is_eq, by decide, by decide, by decide!,
    insert_fresh_key five_table std_equal_to_is_eq (by decide) 6 'Y' (by decide)⟩

/-- Instance of C3: `insert(3, 'Q')` on `list_table`. -/
theorem insert_existing_key_witness :
    key_equal_is_eq list_table.m_key_equal ∧ well_formed list_table ∧
    (∃ e ∈ list_table.entries, e.1 = 3) ∧
    ∃ t' it, list_table.insert (3, 'Q') = some (t', it) ∧ t'.size = list_table.size ∧
      t'.buckets = list_table.buckets ∧
      t'.m_buckets = list_table.m_buckets.map
        (List.map (fun p => if list_table.m_key_equal 3 p.1 then (3, 'Q') else p)) ∧
      t'.entries
        = list_table.entries.map (fun p => if list_table.m_key_equal 3 p.1 then (3, 'Q') else p) ∧
      t'.find 3 = some it ∧ it.deref t'.m_buckets = some (3, 'Q') ∧
      it.eq t'.m_buckets t'.end_ = false :=
  ⟨std_equal_to_is_eq, by decide, by decide,
    insert_existing_key list_table std_equal_to_is_eq (by decide) 3 'Q' (by decide)⟩

/-- Instance of C4: five inserts, one of them a repeat of key 1. -/
theorem insert_all_unique_keys_witness :
    key_equal_is_eq std_equal_to ∧
    ∃ t, (hash_table.construct 1 std_hash std_equal_to).insert_all
        [(1, 'A'), (2, 'B'), (1, 'C'), (3, 'A'), (4, 'G')] = some t ∧
      (t.entries.map Prod.fst).Nodup :=
  ⟨std_equal_to_is_eq, insert_all_unique_keys std_hash std_equal_to std_equal_to_is_eq
    [(1, 'A'), (2, 'B'), (1, 'C'), (3, 'A'), (4, 'G')]⟩

/-- Instance of C6: `erase(7)`, an absent key, and `erase(3)`, a present key, on
`list_table`. -/
theorem erase_key_witness :
    key_equal_is_eq list_table.m_key_equal ∧ well_formed list_table ∧
    (∀ e ∈ list_table.entries, e.1 ≠ 7) ∧ (∃ e ∈ list_table.entries, e.1 = 3) ∧
    list_table.erase 7 = some list_table ∧
    ∃ t', list_table.erase 3 = some t' ∧
      (∃ it, t'.find 3 = some it ∧ it.eq t'.m_buckets t'.end_ = true) ∧
      (∀ k', k' ≠ 3 → lookup t' k' = lookup list_table k') ∧
      t'.m_buckets
        = list_table.m_buckets.map (List.filter (fun p => !list_table.m_key_equal 3 p.1)) ∧
      t'.entries = list_table.entries.filter (fun p => !list_table.m_key_equal 3 p.1) ∧
      t'.buckets = list_table.buckets :=
  ⟨std_equal_to_is_eq, by decide, by decide, by decide,
    (erase_key list_table std_equal_to_is_eq (by decide) 7).1 (by decide),
    (erase_key list_table std_equal_to_is_eq (by decide) 3).2 (by decide)⟩

/-- Instance of C7: `operator[](7)`, an absent key, on `list_table`. -/
theorem subscript_spec_witness :
    0 < list_table.m_buckets.length ∧ key_equal_is_eq list_table.m_key_equal ∧
    well_formed list_table ∧ (∀ e ∈ list_table.entries, e.1 ≠ 7) ∧
    (∃ r, list_table.subscript 7 = some r) ∧
    ∃ t' it, list_table.insert (7, default) = some (t', it) ∧
      list_table.subscript 7 = some (t', default) ∧ t'.size = list_table.size + 1 ∧
      t'.find 7 = some it ∧ it.eq t'.m_buckets t'.end_ = false :=
  ⟨by decide, std_equal_to_is_eq, by decide, by decide,
    (subscript_spec list_table 7 (by decide)).1,
    ((subscript_spec list_table 7 (by decide)).2 std_equal_to_is_eq (by decide)).2
      (by decide)⟩

/-- Instance of C9 (amended) on `sample_calls` from the default-constructed table. -/
theorem buckets_pos_on_reachable_witness :
    (∀ c ∈ sample_calls, c.positive) ∧ (∀ c ∈ sample_calls, c.by_key) ∧
    (∃ t, run default_table sample_calls = some t) ∧
    (∀ n t, run default_table (sample_calls.take n) = some t → 1 ≤ t.buckets) :=
  ⟨by decide, by decide,
    (buckets_pos_on_reachable std_hash std_equal_to default_table (Or.inl rfl)
      sample_calls (by decide)).1.1 (by decide),
    (buckets_pos_on_reachable std_hash std_equal_to default_table (Or.inl rfl)
      sample_calls (by decide)).1.2⟩

/-- Instance of C10 (amended): on `five_table` (s = 5, b = 2, L = 3) the ratio (s + 2) / b is
7 / 2 and the insert of the absent key 6 grows the array. -/
theorem insert_growth_witness :
    1 ≤ five_table.buckets ∧ (∀ e ∈ five_table.entries, five_table.m_key_equal 6 e.1 = false) ∧
    ∃ t' it, five_table.insert (6, 'Y') = some (t', it) ∧
      (t'.buckets = five_table.buckets + 1 ↔
        ((five_table.size : ℚ) + 2) / (five_table.buckets : ℚ) > five_table.m_max_load_factor) ∧
      (¬ ((five_table.size : ℚ) + 2) / (five_table.buckets : ℚ)
          > five_table.m_max_load_factor → t'.buckets = five_table.buckets) :=
  ⟨by decide, by decide, insert_growth five_table 6 'Y' (by decide) (by decide)⟩

end claims

section later_claims

variable {K V : Type}

/-- C11. For every table, whatever its size and bucket count, after clear(): size() is 0,
empty() is true, buckets() is 1, the one bucket holds no pair, and begin() compares equal to
end(). -/
theorem clear_spec (t : hash_table K V) :
    t.clear.size = 0 ∧ t.clear.empty = true ∧ t.clear.buckets = 1 ∧
    t.clear.m_buckets = [[]] ∧ t.clear.entries = [] ∧
    t.clear.begin.eq t.clear.m_buckets t.clear.end_ = true := by
  have h := clear_buckets t
  refine ⟨rfl, rfl, by simp [hash_table.buckets, h], h, by simp [hash_table.entries, h], ?_⟩
  simp only [hash_table.begin, hash_table.end_, h]
  simp [skip_empty, bucket_at, iterator.eq, iterator.at_end]

theorem bucket_at_foldl_place (hash : K → Nat) (l : List (K × V)) :
    ∀ (nb : Buckets K V) (j : Nat), j < nb.length →
      bucket_at (l.foldl (place hash) nb) j
        = (l.filter (fun e => decide (hash e.1 % nb.length = j))).reverse ++ bucket_at nb j := by
  induction l with
  | nil => intro nb j _; simp
  | cons v l ih =>
    intro nb j hj
    rw [List.foldl_cons, ih _ j (by rw [length_place]; exact hj), length_place]
    simp only [place]
    rw [bucket_at_modify _ _ _ _ hj, List.filter_cons]
    by_cases h : hash v.1 % nb.length = j
    · simp [h]
    · simp [h]

/-- C12. On a well-formed table and for n ≥ 1, rehash(n) returns, sets buckets() to n, leaves
size() unchanged, keeps the same multiset of pairs, stores every pair in bucket
hash(key) mod n, and leaves what find yields unchanged for every key. -/
theorem rehash_spec (t : hash_table K V) (hk : key_equal_is_eq t.m_key_equal)
    (hwf : well_formed t) (n : Nat) (hn : 1 ≤ n) :
    ∃ t', t.rehash n = some t' ∧ t'.buckets = n ∧ t'.size = t.size ∧
      t'.entries.Perm t.entries ∧ placed t'.m_hasher t'.m_buckets ∧ well_formed t' ∧
      ∀ k, lookup t' k = lookup t k := by
  have hperm := flatten_foldl_place_perm t.m_hasher t.m_buckets.flatten
    (List.replicate n []) (by simpa using hn)
  rw [flatten_replicate_nil, List.append_nil] at hperm
  have hwf' := well_formed_rehash t hwf.2.2 n hn
  obtain ⟨t', ht'⟩ : ∃ t' : hash_table K V, t' = { t with m_buckets :=
      (t.m_buckets.flatten.foldl (place t.m_hasher) (List.replicate n [])) } := ⟨_, rfl⟩
  have hent : t'.entries.Perm t.entries := by rw [ht']; exact hperm
  have hwf2 : well_formed t' := by rw [ht']; exact hwf'
  have hk' : key_equal_is_eq t'.m_key_equal := by rw [ht']; exact hk
  refine ⟨t', by rw [ht']; exact rehash_eq t n hn, ?_, by rw [ht']; rfl, hent, hwf2.2.1, hwf2, ?_⟩
  · rw [ht']; simp [hash_table.buckets, length_foldl_place]
  · intro k
    exact lookup_congr t t' hk hk' hwf hwf2 k (fun e _ => hent.mem_iff)

/-- C18. For n ≥ 1, after rehash(n) each new bucket j holds, front to back, the reverse of the
subsequence of the old iteration order formed by the pairs with hash(key) mod n = j. -/
theorem rehash_bucket_order (t : hash_table K V) (n : Nat) (hn : 1 ≤ n) :
    ∃ t', t.rehash n = some t' ∧ t'.buckets = n ∧
      ∀ j, j < n → bucket_at t'.m_buckets j
        = (t.entries.filter (fun e => decide (t.m_hasher e.1 % n = j))).reverse := by
  refine ⟨_, rehash_eq t n hn, by simp [hash_table.buckets, length_foldl_place], ?_⟩
  intro j hj
  simp only [hash_table.entries]
  rw [bucket_at_foldl_place _ _ _ j (by simpa using hj), bucket_at_replicate]
  simp

theorem remaining_cons (bs : Buckets K V) (b i : Nat) (hi : i < (bucket_at bs b).length) :
    remaining bs b i = (bucket_at bs b)[i] :: remaining bs b (i + 1) := by
  unfold remaining
  rw [List.drop_eq_getElem_cons hi]; rfl

/-- The three outcomes of `operator++` on an iterator that stands on a pair: the next node of
the same bucket, the first node of the next non-empty bucket, or the end of the array. -/
theorem next_pos (bs : Buckets K V) (b i : Nat) (hb : b < bs.length)
    (hi : i < (bucket_at bs b).length) :
    ∃ it, iterator.next bs (node_iterator bs b i) = some it ∧
      ((∃ b' i', b' < bs.length ∧ i' < (bucket_at bs b').length ∧
          it = node_iterator bs b' i' ∧ remaining bs b' i' = remaining bs b (i + 1) ∧
          ((b' = b ∧ i' = i + 1) ∨ (b < b' ∧ i' = 0 ∧ i + 1 = (bucket_at bs b).length))) ∨
       (it = ⟨bs.length, bs.length, some (b, i + 1)⟩ ∧ remaining bs b (i + 1) = [] ∧
          i + 1 = (bucket_at bs b).length)) := by
  by_cases hlast : i + 1 = (bucket_at bs b).length
  · obtain ⟨h1, h2, h3, h4⟩ := skip_empty_spec bs (bs.length - (b + 1)) (b + 1) (by omega)
    have hrem1 : remaining bs b (i + 1) = (bs.drop (b + 1)).flatten := by
      simp [remaining, hlast]
    by_cases hr : skip_empty bs bs.length (bs.length - (b + 1)) (b + 1) = bs.length
    · refine ⟨⟨bs.length, bs.length, some (b, i + 1)⟩, ?_, Or.inr ⟨rfl, ?_, hlast⟩⟩
      · simp [node_iterator, iterator.next, hi, hb, hlast, hr]
      · rw [hrem1, h3, hr]; simp
    · have hr2 : skip_empty bs bs.length (bs.length - (b + 1)) (b + 1) < bs.length := by omega
      have hne := h4 hr2
      refine ⟨node_iterator bs (skip_empty bs bs.length (bs.length - (b + 1)) (b + 1)) 0, ?_,
        Or.inl ⟨_, 0, hr2, List.length_pos.mpr hne, rfl, ?_, Or.inr ⟨by omega, rfl, hlast⟩⟩⟩
      · simp [node_iterator, iterator.next, hi, hb, hlast, hr]
      · rw [hrem1, h3, drop_eq_bucket_at_cons bs _ hr2]
        simp [remaining]
  · have hi2 : i + 1 < (bucket_at bs b).length := by omega
    refine ⟨node_iterator bs b (i + 1), ?_,
      Or.inl ⟨b, i + 1, hb, hi2, rfl, rfl, Or.inl ⟨rfl, rfl⟩⟩⟩
    simp [node_iterator, iterator.next, hi, hb, hlast]

theorem eq_end_of_pos (bs : Buckets K V) (b i : Nat) (hb : b < bs.length)
    (hi : i < (bucket_at bs b).length) :
    (node_iterator bs b i).eq bs ⟨bs.length, bs.length, none⟩ = false := by
  have h := ne_end_of_pos bs b i hb hi
  simp only [iterator.ne, Bool.not_eq_true'] at h
  exact h

theorem deref_pos (bs : Buckets K V) (b i : Nat) (hi : i < (bucket_at bs b).length) :
    (node_iterator bs b i).deref bs = some (bucket_at bs b)[i] := by
  simp [node_iterator, iterator.deref, List.getElem?_eq_getElem hi]

/-- From an iterator that stands on a pair, `j` advances reach the `j`-th of the remaining
pairs, and as many advances as there are remaining pairs reach an iterator equal to `end()`. -/
theorem advance_pos (bs : Buckets K V) :
    ∀ (r : List (K × V)) (b i : Nat), b < bs.length → i < (bucket_at bs b).length →
      remaining bs b i = r →
      (∀ j, j < r.length → ∃ it, advance bs j (node_iterator bs b i) = some it ∧
          it.eq bs ⟨bs.length, bs.length, none⟩ = false ∧ it.deref bs = r[j]?) ∧
      ∃ it, advance bs r.length (node_iterator bs b i) = some it ∧
          it.eq bs ⟨bs.length, bs.length, none⟩ = true := by
  intro r
  induction r with
  | nil =>
    intro b i hb hi hr
    rw [remaining_cons bs b i hi] at hr
    exact absurd hr (List.cons_ne_nil _ _)
  | cons x rest ih =>
    intro b i hb hi hr
    rw [remaining_cons bs b i hi] at hr
    obtain ⟨hx, hrest⟩ := List.cons.inj hr
    obtain ⟨it, hnext, hcase⟩ := next_pos bs b i hb hi
    rcases hcase with ⟨b', i', hb', hi', rfl, hrem, _⟩ | ⟨rfl, hnil, _⟩
    · obtain ⟨ih1, ih2⟩ := ih b' i' hb' hi' (hrem.trans hrest)
      constructor
      · intro j hj
        cases j with
        | zero =>
          refine ⟨_, rfl, eq_end_of_pos bs b i hb hi, ?_⟩
          rw [deref_pos bs b i hi, hx]; simp
        | succ j =>
          obtain ⟨it, h1, h2, h3⟩ := ih1 j (by simpa using hj)
          refine ⟨it, ?_, h2, ?_⟩
          · simp only [advance, hnext]; exact h1
          · rw [h3]; simp
      · obtain ⟨it, h1, h2⟩ := ih2
        refine ⟨it, ?_, h2⟩
        simp only [List.length_cons, advance, hnext]; exact h1
    · have hrest0 : rest = [] := by rw [← hrest]; exact hnil
      subst hrest0
      constructor
      · intro j hj
        have hj0 : j = 0 := by simpa using hj
        subst hj0
        refine ⟨_, rfl, eq_end_of_pos bs b i hb hi, ?_⟩
        rw [deref_pos bs b i hi, hx]; simp
      · refine ⟨⟨bs.length, bs.length, some (b, i + 1)⟩,
          by simp only [List.length_singleton, advance, hnext], ?_⟩
        simp [iterator.eq, iterator.at_end]

/-- Where `begin()` stands: on the first pair of the table, or at the end of the array when the
table stores no pair. -/
theorem begin_pos (t : hash_table K V) :
    (∃ b, b < t.m_buckets.length ∧ 0 < (bucket_at t.m_buckets b).length ∧
        t.begin = node_iterator t.m_buckets b 0 ∧ remaining t.m_buckets b 0 = t.entries) ∨
    (t.begin = ⟨t.m_buckets.length, t.m_buckets.length, none⟩ ∧ t.entries = []) := by
  obtain ⟨h1, h2, h3, h4⟩ := skip_empty_spec t.m_buckets t.m_buckets.length 0 (by omega)
  simp only [List.drop_zero] at h3
  by_cases hr : skip_empty t.m_buckets t.m_buckets.length t.m_buckets.length 0
      = t.m_buckets.length
  · right
    refine ⟨by simp [hash_table.begin, hr], ?_⟩
    simp only [hash_table.entries]
    rw [h3, hr]; simp
  · left
    have hr2 : skip_empty t.m_buckets t.m_buckets.length t.m_buckets.length 0
        < t.m_buckets.length := by omega
    refine ⟨_, hr2, List.length_pos.mpr (h4 hr2), by simp [hash_table.begin, hr, node_iterator],
      ?_⟩
    simp only [hash_table.entries]
    rw [h3, drop_eq_bucket_at_cons _ _ hr2]; simp [remaining]

theorem collect_eq (t : hash_table K V) : t.collect = some t.entries := by
  unfold hash_table.collect
  rw [range_for_begin]
  have h : ∀ (l acc : List (K × V)),
      l.foldlM (fun acc value => some (acc ++ [value])) acc = some (acc ++ l) := by
    intro l
    induction l with
    | nil => intro acc; simp
    | cons x l ih => intro acc; rw [List.foldlM_cons]; simp [ih]
  rw [h]; rfl

/-- C13. Starting from begin() and applying operator++ visits the concatenation of the buckets
in bucket-array order, front to back within each bucket: the j-th advance stands on the j-th
pair and differs from end(); after as many advances as there are pairs the iterator compares
equal to end(); the collecting loop returns that sequence; and begin() compares equal to end()
exactly when every bucket is empty. -/
theorem traversal (t : hash_table K V) :
    (∀ j, j < t.entries.length → ∃ it, advance t.m_buckets j t.begin = some it ∧
        it.eq t.m_buckets t.end_ = false ∧ it.deref t.m_buckets = t.entries[j]?) ∧
    (∃ it, advance t.m_buckets t.entries.length t.begin = some it ∧
        it.eq t.m_buckets t.end_ = true) ∧
    t.collect = some t.entries ∧
    (t.begin.eq t.m_buckets t.end_ = true ↔ ∀ bucket ∈ t.m_buckets, bucket = []) := by
  have hnil : t.entries = [] ↔ ∀ bucket ∈ t.m_buckets, bucket = [] := by
    simp [hash_table.entries, List.flatten_eq_nil_iff]
  rcases begin_pos t with ⟨b, hb, hi, hbegin, hrem⟩ | ⟨hbegin, hent⟩
  · obtain ⟨h1, h2⟩ := advance_pos t.m_buckets t.entries b 0 hb hi hrem
    rw [hbegin]
    refine ⟨h1, h2, collect_eq t, ?_⟩
    rw [← hnil]
    have hne : t.entries ≠ [] := by
      rw [← hrem, remaining_cons _ _ _ hi]; exact List.cons_ne_nil _ _
    have hf := eq_end_of_pos t.m_buckets b 0 hb hi
    simp only [hash_table.end_, hf, hne]
    simp
  · rw [hbegin, hent]
    refine ⟨fun j hj => absurd hj (by simp), ⟨_, rfl, ?_⟩, by rw [collect_eq, hent], ?_⟩
    · simp [iterator.eq, iterator.at_end, hash_table.end_]
    · rw [← hnil]
      simp [iterator.eq, iterator.at_end, hash_table.end_, hent]

theorem flatten_modify (F : Bucket K V → Bucket K V) (bs : Buckets K V) (b : Nat)
    (hb : b < bs.length) :
    (bs.modify F b).flatten
      = (bs.take b).flatten ++ F (bucket_at bs b) ++ (bs.drop (b + 1)).flatten := by
  rw [List.modify_eq_take_cons_drop hb, bucket_at_eq_getElem bs b hb]
  simp

theorem flatten_split (bs : Buckets K V) (b : Nat) (hb : b < bs.length) :
    bs.flatten = (bs.take b).flatten ++ bucket_at bs b ++ (bs.drop (b + 1)).flatten := by
  have h := flatten_modify id bs b hb
  simpa using h

/-- The iteration order, cut at node `i` of bucket `b`. -/
theorem entries_eq_visited_append (bs : Buckets K V) (b i : Nat) (hb : b < bs.length)
    (hi : i < (bucket_at bs b).length) :
    bs.flatten = visited bs b i ++ (bucket_at bs b)[i] :: remaining bs b (i + 1) := by
  rw [← remaining_cons bs b i hi, flatten_split bs b hb]
  simp only [visited, remaining, List.append_assoc]
  rw [← List.append_assoc ((bucket_at bs b).take i), List.take_append_drop]

theorem flatten_erase_node (bs : Buckets K V) (b i : Nat) (hb : b < bs.length) :
    (bs.modify (fun bucket => bucket.eraseIdx i) b).flatten
      = visited bs b i ++ remaining bs b (i + 1) := by
  rw [flatten_modify _ bs b hb, List.eraseIdx_eq_take_drop_succ]
  simp [visited, remaining]

/-- Closed form of `erase(position)` on an iterator that stands on a pair. -/
theorem erase_at_node (t : hash_table K V) (b i : Nat) (tmp : iterator)
    (hnext : iterator.next t.m_buckets (node_iterator t.m_buckets b i) = some tmp) :
    t.erase_at (node_iterator t.m_buckets b i) = some
      ({ t with m_buckets := (t.m_buckets.modify (fun bucket => bucket.eraseIdx i) b) },
       ⟨tmp.m_bucket_iterator, tmp.m_buckets_end,
         Option.map (fun q => if q.1 = b ∧ i < q.2 then (q.1, q.2 - 1) else q)
           tmp.m_pair_iterator⟩) := by
  simp only [hash_table.erase_at, hnext]
  simp [node_iterator]

/-- C14. For every table and every iterator that refers to a stored pair e (node i of bucket
b), erase(iterator) returns, removes exactly e from the iteration sequence and keeps the order
of the other pairs, and returns an iterator that refers to the pair that followed e, or that
compares equal to end() when e was the last pair. -/
theorem erase_iterator (t : hash_table K V) (b i : Nat) (hb : b < t.m_buckets.length)
    (hi : i < (bucket_at t.m_buckets b).length) :
    (node_iterator t.m_buckets b i).deref t.m_buckets = some (bucket_at t.m_buckets b)[i] ∧
    t.entries = visited t.m_buckets b i ++
      (bucket_at t.m_buckets b)[i] :: remaining t.m_buckets b (i + 1) ∧
    ∃ t' it, t.erase_at (node_iterator t.m_buckets b i) = some (t', it) ∧
      t'.entries = visited t.m_buckets b i ++ remaining t.m_buckets b (i + 1) ∧
      t'.buckets = t.buckets ∧
      (remaining t.m_buckets b (i + 1) = [] → it.eq t'.m_buckets t'.end_ = true) ∧
      (∀ x rest, remaining t.m_buckets b (i + 1) = x :: rest →
        it.deref t'.m_buckets = some x ∧ it.eq t'.m_buckets t'.end_ = false) := by
  refine ⟨deref_pos _ b i hi, entries_eq_visited_append _ b i hb hi, ?_⟩
  obtain ⟨tmp, hnext, hcase⟩ := next_pos t.m_buckets b i hb hi
  have hlen : (t.m_buckets.modify (fun bucket => bucket.eraseIdx i) b).length
      = t.m_buckets.length := List.length_modify _ _ _
  have hbk : ∀ j, j < t.m_buckets.length →
      bucket_at (t.m_buckets.modify (fun bucket => bucket.eraseIdx i) b) j
        = if b = j then (bucket_at t.m_buckets j).eraseIdx i else bucket_at t.m_buckets j :=
    fun j hj => bucket_at_modify _ _ _ _ hj
  refine ⟨_, _, erase_at_node t b i tmp hnext, flatten_erase_node _ b i hb,
    by simp [hash_table.buckets], ?_⟩
  rcases hcase with ⟨b', i', hb', hi', rfl, hrem, ⟨rfl, rfl⟩ | ⟨hlt, rfl, hlast⟩⟩ |
    ⟨rfl, hnil, hlast⟩
  · -- the next node of the same bucket
    have hx := remaining_cons t.m_buckets b' (i + 1) hi'
    constructor
    · intro h; rw [h] at hx; exact absurd hx.symm (List.cons_ne_nil _ _)
    · intro x rest h
      rw [hx] at h
      obtain ⟨hx1, _⟩ := List.cons.inj h
      have hi2 : i < ((bucket_at t.m_buckets b').eraseIdx i).length := by
        rw [List.length_eraseIdx]; split <;> omega
      have hit : (⟨b', t.m_buckets.length,
            Option.map (fun q : Nat × Nat => if q.1 = b' ∧ i < q.2 then (q.1, q.2 - 1) else q)
              (some (b', i + 1))⟩ : iterator)
          = node_iterator (t.m_buckets.modify (fun bucket => bucket.eraseIdx i) b') b' i := by
        simp [node_iterator]
      simp only [node_iterator] at hit ⊢
      rw [hit]
      have hbb := hbk b' hb'
      rw [if_pos rfl] at hbb
      constructor
      · have hd := deref_pos (t.m_buckets.modify (fun bucket => bucket.eraseIdx i) b') b' i
          (by rw [hbb]; exact hi2)
        simp only [node_iterator] at hd
        rw [hd, ← hx1]
        simp only [hbb, Option.some.injEq]
        rw [List.getElem_eraseIdx_of_ge _ _ _ _ (le_refl i)]
      · have he := eq_end_of_pos (t.m_buckets.modify (fun bucket => bucket.eraseIdx i) b') b' i
          (by rw [hlen]; exact hb') (by rw [hbb]; exact hi2)
        simp only [node_iterator] at he
        simpa [hash_table.end_] using he
  · -- the first node of the next non-empty bucket
    have hx := remaining_cons t.m_buckets b' 0 hi'
    rw [hrem] at hx
    have hne : b ≠ b' := by omega
    constructor
    · intro h; rw [h] at hx; exact absurd hx.symm (List.cons_ne_nil _ _)
    · intro x rest h
      rw [hx] at h
      obtain ⟨hx1, _⟩ := List.cons.inj h
      have hit : (⟨b', t.m_buckets.length,
            Option.map (fun q : Nat × Nat => if q.1 = b ∧ i < q.2 then (q.1, q.2 - 1) else q)
              (some (b', 0))⟩ : iterator)
          = node_iterator (t.m_buckets.modify (fun bucket => bucket.eraseIdx i) b) b' 0 := by
        simp [node_iterator]
      simp only [node_iterator] at hit ⊢
      rw [hit]
      have hbb := hbk b' hb'
      rw [if_neg hne] at hbb
      constructor
      · have hd := deref_pos (t.m_buckets.modify (fun bucket => bucket.eraseIdx i) b) b' 0
          (by rw [hbb]; exact hi')
        simp only [node_iterator] at hd
        rw [hd, ← hx1]
        simp only [hbb]
      · have he := eq_end_of_pos (t.m_buckets.modify (fun bucket => bucket.eraseIdx i) b) b' 0
          (by rw [hlen]; exact hb') (by rw [hbb]; exact hi')
        simp only [node_iterator] at he
        simpa [hash_table.end_] using he
  · -- the end of the array
    constructor
    · intro _
      simp [iterator.eq, iterator.at_end, hash_table.end_]
    · intro x rest h
      rw [hnil] at h
      exact absurd h.symm (List.cons_ne_nil _ _)

/-- With the default load factor 3 and at least one bucket, `rehash_needed()` after the
increment of a size `s` holds exactly when `3 * bucket_count < s + 2`. -/
theorem rehash_needed_iff (t : hash_table K V) (hL : t.m_max_load_factor = 3)
    (hlen : 0 < t.m_buckets.length) :
    hash_table.rehash_needed { t with m_size := t.m_size + 1 } = true
      ↔ 3 * t.m_buckets.length < t.m_size + 2 := by
  have hpos : (0 : ℚ) < (t.m_buckets.length : ℚ) := by exact_mod_cast hlen
  simp only [hash_table.rehash_needed, decide_eq_true_eq, hL]
  rw [gt_iff_lt, lt_div_iff₀ hpos]
  constructor
  · intro h
    have : ((3 * t.m_buckets.length : ℕ) : ℚ) < ((t.m_size + 2 : ℕ) : ℚ) := by
      push_cast; push_cast at h; linarith
    exact_mod_cast this
  · intro h
    have : ((3 * t.m_buckets.length : ℕ) : ℚ) < ((t.m_size + 2 : ℕ) : ℚ) := by exact_mod_cast h
    push_cast at this ⊢; linarith

theorem entries_place_perm (t : hash_table K V) (hlen : 0 < t.m_buckets.length) (k : K) (v : V) :
    (place t.m_hasher (grown t) (k, v)).flatten.Perm ((k, v) :: t.m_buckets.flatten) :=
  (flatten_modify_cons_perm (k, v) (grown t) _ (Nat.mod_lt _ (length_grown_pos t hlen))).trans
    (List.Perm.cons _ (flatten_grown_perm t))

/-- One `insert` on a well-formed table returns a well-formed table with the same hash
function, key predicate and load factor, and keeps `m_size` equal to the number of stored
pairs. -/
theorem insert_sound (t : hash_table K V) (hk : key_equal_is_eq t.m_key_equal)
    (hwf : well_formed t) (p : K × V) :
    ∃ t1 it, t.insert p = some (t1, it) ∧ well_formed t1 ∧
      t1.m_key_equal = t.m_key_equal ∧ t1.m_hasher = t.m_hasher ∧
      (t.m_size = t.entries.length → t1.m_size = t1.entries.length) := by
  obtain ⟨k, v⟩ := p
  have hlen := hwf.1
  by_cases h : find_pair t.m_key_equal k
      (bucket_at t.m_buckets (t.m_hasher k % t.m_buckets.length)) 0
      = (bucket_at t.m_buckets (t.m_hasher k % t.m_buckets.length)).length
  · have habs := (find_pair_eq_length_iff_absent t hk hwf k).mp h
    refine ⟨_, _, insert_absent t k v hlen h, well_formed_place t hwf k v habs, rfl, rfl, ?_⟩
    intro hs
    simp only [hash_table.entries] at hs ⊢
    rw [(entries_place_perm t hlen k v).length_eq, List.length_cons, hs]
  · have hins := insert_present t k v hlen h
    rw [update_eq_map t hk hwf k v] at hins
    refine ⟨_, _, hins, ?_, rfl, rfl, ?_⟩
    · apply well_formed_update t hwf
      intro q; split <;> rfl
    · intro hs
      simp only [hash_table.entries] at hs ⊢
      rw [← List.map_flatten, List.length_map]
      exact hs

/-- A sequence of inserts on a well-formed table whose `m_size` counts its pairs returns such a
table again. -/
theorem insert_all_sound (values : List (K × V)) :
    ∀ t : hash_table K V, key_equal_is_eq t.m_key_equal → well_formed t →
      t.m_size = t.entries.length →
      ∃ t', t.insert_all values = some t' ∧ well_formed t' ∧
        t'.m_key_equal = t.m_key_equal ∧ t'.m_hasher = t.m_hasher ∧
        t'.m_size = t'.entries.length := by
  induction values with
  | nil => intro t _ hwf hs; exact ⟨t, rfl, hwf, rfl, rfl, hs⟩
  | cons p rest ih =>
    intro t hk hwf hs
    obtain ⟨t1, it, h1, hw1, hk1, hh1, hs1⟩ := insert_sound t hk hwf p
    obtain ⟨t', h2, hw2, hk2, hh2, hs2⟩ := ih t1 (by rw [hk1]; exact hk) hw1 (hs1 hs)
    exact ⟨t', by simp only [hash_table.insert_all, h1, h2], hw2, hk2.trans hk1,
      hh2.trans hh1, hs2⟩

/-- Inserting pairs with pairwise distinct keys, none of them in the table, into a well-formed
table with load factor 3 and at least `1 + size / 3` buckets: every insert adds a pair, and the
bucket count ends at the larger of its old value and `1 + (new size) / 3`. -/
theorem insert_all_fresh (values : List (K × V)) :
    ∀ t : hash_table K V, key_equal_is_eq t.m_key_equal → well_formed t →
      (values.map Prod.fst).Nodup → (∀ p ∈ values, ∀ e ∈ t.entries, e.1 ≠ p.1) →
      t.m_max_load_factor = 3 → 1 + t.m_size / 3 ≤ t.m_buckets.length →
      ∃ t', t.insert_all values = some t' ∧ t'.m_size = t.m_size + values.length ∧
        t'.m_buckets.length = max t.m_buckets.length (1 + (t.m_size + values.length) / 3) ∧
        well_formed t' ∧ t'.entries.Perm (values ++ t.entries) ∧
        t'.m_key_equal = t.m_key_equal ∧ t'.m_hasher = t.m_hasher := by
  induction values with
  | nil =>
    intro t _ hwf _ _ _ hb
    refine ⟨t, rfl, rfl, ?_, hwf, List.Perm.refl _, rfl, rfl⟩
    simp only [List.length_nil, Nat.add_zero]
    omega
  | cons p rest ih =>
    intro t hk hwf hnd hfresh hL hb
    obtain ⟨k, v⟩ := p
    have hlen := hwf.1
    have habs : ∀ e ∈ t.entries, e.1 ≠ k := fun e he => hfresh (k, v) (List.mem_cons_self _ _) e he
    have h := (find_pair_eq_length_iff_absent t hk hwf k).mpr habs
    have hins := insert_absent t k v hlen h
    have hw1 := well_formed_place t hwf k v habs
    have hperm := entries_place_perm t hlen k v
    obtain ⟨t1, ht1⟩ : ∃ t1 : hash_table K V, t1 =
        { t with m_size := t.m_size + 1,
                 m_buckets := place t.m_hasher (grown t) (k, v) } := ⟨_, rfl⟩
    rw [← ht1] at hins hw1
    have hk1 : t1.m_key_equal = t.m_key_equal := by rw [ht1]
    have hh1 : t1.m_hasher = t.m_hasher := by rw [ht1]
    have hs1 : t1.m_size = t.m_size + 1 := by rw [ht1]
    have hL1 : t1.m_max_load_factor = 3 := by rw [ht1]; exact hL
    have he1 : t1.entries.Perm ((k, v) :: t.entries) := by rw [ht1]; exact hperm
    have hl1 : t1.m_buckets.length
        = if 3 * t.m_buckets.length < t.m_size + 2 then t.m_buckets.length + 1
          else t.m_buckets.length := by
      rw [ht1]
      simp only [length_place, length_grown]
      by_cases hc : 3 * t.m_buckets.length < t.m_size + 2
      · rw [if_pos ((rehash_needed_iff t hL hlen).mpr hc), if_pos hc]
      · rw [if_neg (fun hr => hc ((rehash_needed_iff t hL hlen).mp hr)), if_neg hc]
    rw [List.map_cons, List.nodup_cons] at hnd
    have hfresh1 : ∀ p ∈ rest, ∀ e ∈ t1.entries, e.1 ≠ p.1 := by
      intro p hp e he
      rcases List.mem_cons.mp (he1.mem_iff.mp he) with rfl | he'
      · intro hkp
        exact hnd.1 (by rw [hkp]; exact List.mem_map_of_mem _ hp)
      · exact hfresh p (List.mem_cons_of_mem _ hp) e he'
    have hb1 : 1 + t1.m_size / 3 ≤ t1.m_buckets.length := by
      rw [hs1, hl1]; split <;> omega
    obtain ⟨t', h2, hs2, hl2, hw2, he2, hk2, hh2⟩ :=
      ih t1 (by rw [hk1]; exact hk) hw1 hnd.2 hfresh1 hL1 hb1
    refine ⟨t', by simp only [hash_table.insert_all, hins, h2], ?_, ?_, hw2, ?_,
      hk2.trans hk1, hh2.trans hh1⟩
    · rw [hs2, hs1, List.length_cons]; omega
    · rw [hl2, hs1, hl1, List.length_cons]; split <;> omega
    · refine he2.trans ?_
      exact (List.Perm.append_left rest he1).trans List.perm_middle

theorem construct_entries (n : Nat) (hash : K → Nat) (keq : K → K → Bool) :
    (hash_table.construct n hash keq : hash_table K V).entries = [] := by
  simp [hash_table.entries, hash_table.construct, flatten_replicate_nil]

/-- Inserting pairs with pairwise distinct keys into a default-constructed table: the size is
the number of pairs and the bucket count is `1 + size / 3`. -/
theorem insert_all_distinct (hash : K → Nat) (keq : K → K → Bool) (hk : key_equal_is_eq keq)
    (values : List (K × V)) (hd : (values.map Prod.fst).Nodup) :
    ∃ t, (hash_table.construct 1 hash keq).insert_all values = some t ∧
      t.m_size = values.length ∧ t.m_buckets.length = 1 + values.length / 3 ∧
      well_formed t ∧ t.entries.Perm values ∧ t.m_key_equal = keq ∧ t.m_hasher = hash := by
  obtain ⟨t, h1, h2, h3, h4, h5, h6, h7⟩ := insert_all_fresh values
    (hash_table.construct 1 hash keq) hk (well_formed_construct hash keq) hd
    (by intro p _ e he; rw [construct_entries] at he; simp at he) rfl
    (by simp [hash_table.construct])
  refine ⟨t, h1, ?_, ?_, h4, ?_, h6, h7⟩
  · rw [h2]; simp [hash_table.construct]
  · rw [h3]; simp only [hash_table.construct, List.length_replicate]; omega
  · rw [construct_entries, List.append_nil] at h5; exact h5

/-- C15. For a table T built from a default-constructed table by any sequence of inserts,
collecting T's pairs by a full traversal and building a fresh table from that sequence with the
range constructor returns a table with the same size() as T in which find yields, for every key,
what it yields in T. -/
theorem round_trip (hash : K → Nat) (keq : K → K → Bool) (hk : key_equal_is_eq keq)
    (values : List (K × V)) :
    ∃ T collected fresh, (hash_table.construct 1 hash keq).insert_all values = some T ∧
      T.collect = some collected ∧
      hash_table.from_range collected 1 hash keq = some fresh ∧
      fresh.size = T.size ∧ ∀ k, lookup fresh k = lookup T k := by
  obtain ⟨T, hT, hwT, hkT, hhT, hsT⟩ := insert_all_sound values
    (hash_table.construct 1 hash keq) hk (well_formed_construct hash keq)
    (by rw [construct_entries]; rfl)
  obtain ⟨fresh, hf, hsf, _, hwf, hef, hkf, hhf⟩ :=
    insert_all_distinct hash keq hk T.entries hwT.2.2
  refine ⟨T, T.entries, fresh, hT, collect_eq T, hf, ?_, ?_⟩
  · simp only [hash_table.size]; rw [hsf, hsT]
  · intro k
    exact lookup_congr T fresh (by rw [hkT]; exact hk) (by rw [hkf]; exact hk) hwT hwf k
      (fun e _ => hef.mem_iff)

theorem initialize_values_keys (n : Nat) :
    (initialize_values n).map Prod.fst = List.range n := by
  simp [initialize_values, List.map_map, Function.comp_def]

theorem initialize_values_length (n : Nat) : (initialize_values n).length = n := by
  simp [initialize_values]

/-- C16. After move construction B(move(A)) or move assignment B = move(A) on distinct objects,
B has the bucket array, hence the pairs and the key-to-value mapping, and the size A had, and A
reports size() == 0 and empty() == true.  For A filled by `test::initialize` (keys 0..999),
B.size() is 1000 and A is empty. -/
theorem move_spec (A B0 : hash_table K V) :
    ((hash_table.move_construct A).1 = A ∧
      (hash_table.move_construct A).1.size = A.size ∧
      (hash_table.move_construct A).1.entries = A.entries ∧
      (∀ k, lookup (hash_table.move_construct A).1 k = lookup A k) ∧
      (hash_table.move_construct A).2.size = 0 ∧
      (hash_table.move_construct A).2.empty = true) ∧
    ((hash_table.move_assign B0 A).1 = A ∧
      (hash_table.move_assign B0 A).1.size = A.size ∧
      (hash_table.move_assign B0 A).1.entries = A.entries ∧
      (∀ k, lookup (hash_table.move_assign B0 A).1 k = lookup A k) ∧
      (hash_table.move_assign B0 A).2.size = 0 ∧
      (hash_table.move_assign B0 A).2.empty = true) ∧
    ∃ T, default_table.insert_all (initialize_values 1000) = some T ∧
      (hash_table.move_construct T).1.size = 1000 ∧
      (hash_table.move_construct T).2.empty = true ∧
      (hash_table.move_assign default_table T).1.size = 1000 ∧
      (hash_table.move_assign default_table T).2.empty = true := by
  refine ⟨⟨rfl, rfl, rfl, fun _ => rfl, rfl, rfl⟩, ⟨rfl, rfl, rfl, fun _ => rfl, rfl, rfl⟩, ?_⟩
  obtain ⟨T, hT, hs, _⟩ := insert_all_distinct std_hash std_equal_to
    std_equal_to_is_eq (initialize_values 1000)
    (by rw [initialize_values_keys]; exact List.nodup_range 1000)
  rw [initialize_values_length] at hs
  exact ⟨T, hT, hs, rfl, hs, rfl⟩

/-- C17. After copy construction B(A) or copy assignment B = A, B has the same size() and
buckets() as A, a full traversal of B yields element for element the sequence a full traversal
of A yields, and A is unchanged. -/
theorem copy_spec (A B0 : hash_table K V) :
    ((hash_table.copy_construct A).1.size = A.size ∧
      (hash_table.copy_construct A).1.buckets = A.buckets ∧
      (hash_table.copy_construct A).1.collect = A.collect ∧
      (hash_table.copy_construct A).2 = A) ∧
    ((hash_table.copy_assign B0 A).1.size = A.size ∧
      (hash_table.copy_assign B0 A).1.buckets = A.buckets ∧
      (hash_table.copy_assign B0 A).1.collect = A.collect ∧
      (hash_table.copy_assign B0 A).2 = A) ∧
    A.collect = some A.entries :=
  ⟨⟨rfl, rfl, rfl, rfl⟩, ⟨rfl, rfl, rfl, rfl⟩, collect_eq A⟩

/-- C19 (amended). The initializer-list constructor on n ≥ 3 pairs with pairwise distinct keys
returns, pre-sizes the bucket array to floor(n / 3.0) buckets, and its n insertions grow that
array by exactly one bucket: buckets() after construction is floor(n / 3.0) + 1, and size()
is n. -/
theorem initializer_list_buckets (hash : K → Nat) (keq : K → K → Bool)
    (hk : key_equal_is_eq keq) (il : List (K × V)) (hn : 3 ≤ il.length)
    (hd : (il.map Prod.fst).Nodup) :
    ∃ t0 t, (hash_table.construct 1 hash keq : hash_table K V).rehash
        ⌊((il.length : Nat) : ℚ) / DEFAULT_MAX_LOAD_FACTOR⌋₊ = some t0 ∧
      t0.buckets = ⌊((il.length : Nat) : ℚ) / DEFAULT_MAX_LOAD_FACTOR⌋₊ ∧
      hash_table.from_initializer_list il 1 hash keq = some t ∧
      t.size = il.length ∧
      t.buckets = ⌊((il.length : Nat) : ℚ) / DEFAULT_MAX_LOAD_FACTOR⌋₊ + 1 := by
  have hfl : ⌊((il.length : Nat) : ℚ) / DEFAULT_MAX_LOAD_FACTOR⌋₊ = il.length / 3 := by
    have h := @Nat.floor_div_eq_div ℚ _ _ il.length 3
    simpa [DEFAULT_MAX_LOAD_FACTOR] using h
  have hpos : 0 < il.length / 3 := Nat.div_pos hn (by norm_num)
  have hnil : (hash_table.construct 1 hash keq : hash_table K V).m_buckets.flatten = [] :=
    construct_entries 1 hash keq
  obtain ⟨t0, ht0⟩ : ∃ t0 : hash_table K V, t0 =
      { (hash_table.construct 1 hash keq : hash_table K V) with
        m_buckets := (List.replicate (il.length / 3) []) } := ⟨_, rfl⟩
  have hre : (hash_table.construct 1 hash keq : hash_table K V).rehash (il.length / 3)
      = some t0 := by
    rw [rehash_eq _ _ hpos, hnil, ht0]; rfl
  have hw0 : well_formed t0 := by
    have h := well_formed_rehash (hash_table.construct 1 hash keq : hash_table K V)
      (well_formed_construct hash keq).2.2 (il.length / 3) hpos
    rw [hnil] at h
    rw [ht0]; exact h
  have he0 : t0.entries = [] := by
    rw [ht0]; simp [hash_table.entries, flatten_replicate_nil]
  have hl0 : t0.m_buckets.length = il.length / 3 := by rw [ht0]; simp
  have hs0 : t0.m_size = 0 := by rw [ht0]; rfl
  obtain ⟨t, h1, h2, h3, _⟩ := insert_all_fresh il t0 (by rw [ht0]; exact hk) hw0 hd
    (by intro p _ e he; rw [he0] at he; simp at he) (by rw [ht0]; rfl)
    (by rw [hs0, hl0]; omega)
  refine ⟨t0, t, by rw [hfl]; exact hre, by rw [hfl]; exact hl0, ?_, ?_, ?_⟩
  · simp only [hash_table.from_initializer_list]
    have hc : (hash_table.construct 1 hash keq : hash_table K V).m_max_load_factor
        = DEFAULT_MAX_LOAD_FACTOR := rfl
    rw [hc, hfl, hre]
    exact h1
  · simp only [hash_table.size]; rw [h2, hs0]; omega
  · simp only [hash_table.buckets]; rw [h3, hl0, hs0, hfl]; omega

/-- C20. Inserting N pairs with pairwise distinct keys one at a time into a default-constructed
table (one bucket, load factor 3) returns a table with size() == N and
buckets() == 1 + N / 3, whatever the keys and the hash function are. -/
theorem insert_distinct_growth (hash : K → Nat) (keq : K → K → Bool)
    (hk : key_equal_is_eq keq) (values : List (K × V)) (hd : (values.map Prod.fst).Nodup) :
    ∃ t, (hash_table.construct 1 hash keq).insert_all values = some t ∧
      t.size = values.length ∧ t.buckets = 1 + values.length / 3 := by
  obtain ⟨t, h1, h2, h3, _⟩ := insert_all_distinct hash keq hk values hd
  exact ⟨t, h1, h2, h3⟩

/-- C19 (counterexample). The four-pair list of the test is pre-sized to floor(4 / 3.0) = 1
bucket, yet the constructed table has 2 buckets: the third insertion rebuilds the array. -/
theorem initializer_list_grows :
    ⌊(((4 : Nat) : ℚ)) / DEFAULT_MAX_LOAD_FACTOR⌋₊ = 1 ∧
    (hash_table.from_initializer_list [(1, 'A'), (2, 'B'), (3, 'A'), (4, 'G')] 1 std_hash
        std_equal_to).map hash_table.buckets = some 2 ∧
    ((default_table.rehash 1).bind (fun t => t.insert_all [(1, 'A'), (2, 'B')])).map
        hash_table.buckets = some 1 ∧
    ((default_table.rehash 1).bind (fun t => t.insert_all [(1, 'A'), (2, 'B'), (3, 'A')])).map
        hash_table.buckets = some 2 :=
  ⟨by decide!, by decide!, by decide!, by decide!⟩

/-- Instance of C12: `rehash(3)` on `list_table`. -/
theorem rehash_spec_witness :
    key_equal_is_eq list_table.m_key_equal ∧ well_formed list_table ∧ 1 ≤ 3 ∧
    ∃ t', list_table.rehash 3 = some t' ∧ t'.buckets = 3 ∧ t'.size = list_table.size ∧
      t'.entries.Perm list_table.entries ∧ placed t'.m_hasher t'.m_buckets ∧ well_formed t' ∧
      ∀ k, lookup t' k = lookup list_table k :=
  ⟨std_equal_to_is_eq, by decide, by decide,
    rehash_spec list_table std_equal_to_is_eq (by decide) 3 (by decide)⟩

/-- Instance of C14: `erase` of the iterator to `(2, 'B')`, the last pair of bucket 0 of
`list_table`; the pair that follows is `(3, 'A')`, the first pair of bucket 1. -/
theorem erase_iterator_witness :
    0 < list_table.m_buckets.length ∧ 1 < (bucket_at list_table.m_buckets 0).length ∧
    (node_iterator list_table.m_buckets 0 1).deref list_table.m_buckets = some (2, 'B') ∧
    remaining list_table.m_buckets 0 (1 + 1) = [(3, 'A'), (1, 'A')] ∧
    ∃ t' it, list_table.erase_at (node_iterator list_table.m_buckets 0 1) = some (t', it) ∧
      t'.entries = visited list_table.m_buckets 0 1 ++ remaining list_table.m_buckets 0 (1 + 1) ∧
      t'.buckets = list_table.buckets ∧
      (remaining list_table.m_buckets 0 (1 + 1) = [] → it.eq t'.m_buckets t'.end_ = true) ∧
      (∀ x rest, remaining list_table.m_buckets 0 (1 + 1) = x :: rest →
        it.deref t'.m_buckets = some x ∧ it.eq t'.m_buckets t'.end_ = false) :=
  ⟨by decide, by decide, by decide, by decide,
    (erase_iterator list_table 0 1 (by decide) (by decide)).2.2⟩

/-- Instance of C15: five inserts, one of them a repeat of key 1. -/
theorem round_trip_witness :
    key_equal_is_eq std_equal_to ∧
    ∃ T collected fresh, (hash_table.construct 1 std_hash std_equal_to).insert_all
        [(1, 'A'), (2, 'B'), (1, 'C'), (3, 'A'), (4, 'G')] = some T ∧
      T.collect = some collected ∧
      hash_table.from_range collected 1 std_hash std_equal_to = some fresh ∧
      fresh.size = T.size ∧ ∀ k, lookup fresh k = lookup T k :=
  ⟨std_equal_to_is_eq, round_trip std_hash std_equal_to std_equal_to_is_eq
    [(1, 'A'), (2, 'B'), (1, 'C'), (3, 'A'), (4, 'G')]⟩

/-- Instance of C18: `rehash(3)` on `list_table`, whose iteration order is
`(4,'G'), (2,'B'), (3,'A'), (1,'A')`. -/
theorem rehash_bucket_order_witness :
    1 ≤ 3 ∧ list_table.entries = [(4, 'G'), (2, 'B'), (3, 'A'), (1, 'A')] ∧
    ∃ t', list_table.rehash 3 = some t' ∧ t'.buckets = 3 ∧
      ∀ j, j < 3 → bucket_at t'.m_buckets j
        = (list_table.entries.filter
            (fun e => decide (list_table.m_hasher e.1 % 3 = j))).reverse :=
  ⟨by decide, by decide, rehash_bucket_order list_table 3 (by decide)⟩

/-- Instance of C19 (amended): the four-pair list of the test. -/
theorem initializer_list_buckets_witness :
    key_equal_is_eq std_equal_to ∧ 3 ≤ [(1, 'A'), (2, 'B'), (3, 'A'), (4, 'G')].length ∧
    ([(1, 'A'), (2, 'B'), (3, 'A'), (4, 'G')].map Prod.fst).Nodup ∧
    ∃ t0 t, (hash_table.construct 1 std_hash std_equal_to : hash_table Nat Char).rehash
        ⌊(([(1, 'A'), (2, 'B'), (3, 'A'), (4, 'G')].length : Nat) : ℚ)
          / DEFAULT_MAX_LOAD_FACTOR⌋₊ = some t0 ∧
      t0.buckets = ⌊(([(1, 'A'), (2, 'B'), (3, 'A'), (4, 'G')].length : Nat) : ℚ)
          / DEFAULT_MAX_LOAD_FACTOR⌋₊ ∧
      hash_table.from_initializer_list [(1, 'A'), (2, 'B'), (3, 'A'), (4, 'G')] 1 std_hash
        std_equal_to = some t ∧
      t.size = [(1, 'A'), (2, 'B'), (3, 'A'), (4, 'G')].length ∧
      t.buckets = ⌊(([(1, 'A'), (2, 'B'), (3, 'A'), (4, 'G')].length : Nat) : ℚ)
          / DEFAULT_MAX_LOAD_FACTOR⌋₊ + 1 :=
  ⟨std_equal_to_is_eq, by decide, by decide,
    initializer_list_buckets std_hash std_equal_to std_equal_to_is_eq
      [(1, 'A'), (2, 'B'), (3, 'A'), (4, 'G')] (by decide) (by decide)⟩

/-- Instance of C20: the 1000 pairs of `test::initialize` give size 1000 and 334 buckets. -/
theorem insert_distinct_growth_witness :
    key_equal_is_eq std_equal_to ∧ ((initialize_values 1000).map Prod.fst).Nodup ∧
    ∃ t, default_table.insert_all (initialize_values 1000) = some t ∧
      t.size = 1000 ∧ t.buckets = 334 := by
  have hd : ((initialize_values 1000).map Prod.fst).Nodup := by
    rw [initialize_values_keys]; exact List.nodup_range 1000
  have h := insert_distinct_growth std_hash std_equal_to std_equal_to_is_eq
    (initialize_values 1000) hd
  rw [initialize_values_length] at h
  exact ⟨std_equal_to_is_eq, hd, h⟩

end later_claims
